import Mathlib

set_option maxHeartbeats 1000000

/-!
Verification development for the ouster-parser repository.

This file shallowly embeds the two algorithmic cores of the program:

* the IPv4 fragment reassembler `IPV4Seq::put_and_get` from `src/sequence.rs`
  (per-flow hole tracking over a fixed 65535-byte buffer), and
* the Ouster "legacy" packet decoder from `src/ouster.rs`
  (`Legacy::put`, `parse_measure_block`, `parse_data_block`,
  `set_current_state`, `save_pcd`).

Machine integers are modelled as `Nat` with explicit `% 2^16` / `% 2^32`
where the Rust code performs wrapping 16/32-bit arithmetic.  Byte buffers
are `List Nat` (payloads) or `Nat → Nat` (the 65535-byte reassembly
buffer, updated functionally).  The floating-point point geometry of
`calculate_xyz` is not modelled; a point appended to the decoder's point
buffer is recorded as the tuple of integer arguments the source passes to
`calculate_xyz` (one record per 4 pushed f32 values).
-/

namespace OusterParse

/-- Flow key of one in-flight IPv4 datagram: source address, destination
address, protocol and fragmentation id (struct `IPV4Key` in
`src/sequence.rs`).  Addresses are abstracted to `Nat`. -/
structure IPV4Key where
  source : Nat
  dest : Nat
  proto : Nat
  id : Nat
deriving DecidableEq

/-- An unreceived byte range `[first, last)` of a reassembly buffer
(struct `IPV4Hole` in `src/sequence.rs`; fields are `u16`). -/
structure IPV4Hole where
  first : Nat
  last : Nat
deriving DecidableEq

/-- `PACKET_MAX_SIZE` from `src/sequence.rs`. -/
def PACKET_MAX_SIZE : Nat := 0xFFFF

/-- Reassembly state of one flow (struct `IPV4Chunk` in
`src/sequence.rs`): the 65535-byte data buffer (modelled as a function
from byte index to byte value), the list of holes, and the recorded
total length. -/
structure IPV4Chunk where
  data : Nat → Nat
  holes : List IPV4Hole
  len : Nat

/-- `IPV4Chunk::new`: zeroed buffer, one hole spanning the whole buffer,
length initialised to `PACKET_MAX_SIZE`. -/
def IPV4Chunk.new : IPV4Chunk :=
  { data := fun _ => 0, holes := [⟨0, PACKET_MAX_SIZE⟩], len := PACKET_MAX_SIZE }

/-- The reassembly table (`IPV4Seq.buffer`, a `HashMap` in the source)
modelled as an association list from keys to chunks.  The source's
`HashMap` iteration order is unspecified; the list order here fixes one
admissible order. -/
abbrev Table : Type := List (IPV4Key × IPV4Chunk)

/-- One IPv4 fragment as seen by `put_and_get`: its flow key, the 13-bit
fragment offset field, the payload bytes, and the MORE_FRAGMENTS /
DONT_FRAGMENT flags. -/
structure Frag where
  key : IPV4Key
  offset : Nat
  payload : List Nat
  mf : Bool
  df : Bool

/-- `length` in `put_and_get`: the payload length cast to `u16`
(`pkt.payload().len() as u16`). -/
def len16 (f : Frag) : Nat := f.payload.length % 65536

/-- `data_first = offset * 8` in 16-bit arithmetic. -/
def first16 (f : Frag) : Nat := (f.offset * 8) % 65536

/-- `data_last = data_first + length` in 16-bit wrapping arithmetic. -/
def last16 (f : Frag) : Nat := (first16 f + len16 f) % 65536

/-- `chunk.data[data_first..][..payload.len()].copy_from_slice(payload)`:
overwrite `p.length` bytes starting at `start`. -/
def writeBytes (d : Nat → Nat) (start : Nat) (p : List Nat) : Nat → Nat :=
  fun i => if start ≤ i ∧ i < start + p.length then p.getD (i - start) 0 else d i

/-- Whether the table tracks a flow with this key
(`self.buffer.contains_key(&key)`). -/
def containsKey : Table → IPV4Key → Bool
  | [], _ => false
  | (k0, _) :: t, q => if k0 = q then true else containsKey t q

/-- Chunk stored for a key (`self.buffer.get(&key)`). -/
def lookupKey : Table → IPV4Key → Option IPV4Chunk
  | [], _ => none
  | (k0, c0) :: t, q => if k0 = q then some c0 else lookupKey t q

/-- Replace the chunk stored for a key (mutation through
`self.buffer.get_mut(&key)` in the source). -/
def updateKey : Table → IPV4Key → IPV4Chunk → Table
  | [], _, _ => []
  | (k0, c0) :: t, q, c => if k0 = q then (q, c) :: t else (k0, c0) :: updateKey t q c

/-- Remove a flow from the table (`self.buffer.remove(&remove_key)`). -/
def eraseKey : Table → IPV4Key → Table
  | [], _ => []
  | (k0, c0) :: t, q => if k0 = q then t else (k0, c0) :: eraseKey t q

/-- `if !self.buffer.contains_key(&key) { self.buffer.insert(key, IPV4Chunk::new()); }` -/
def ensureKey (s : Table) (q : IPV4Key) : Table :=
  if containsKey s q then s else s ++ [(q, IPV4Chunk.new)]

/-- The `for (index, hole) in chunk.holes.iter().enumerate()` scan: the
first hole (with its index) whose range strictly overlaps `[f, l)`,
using the source's test `data_first < hole.last && data_last > hole.first`. -/
def findOverlap : List IPV4Hole → Nat → Nat → Option (Nat × IPV4Hole)
  | [], _, _ => none
  | h :: t, f, l =>
    if f < h.last ∧ h.first < l then some (0, h)
    else (findOverlap t f l).map (fun p => (p.1 + 1, p.2))

/-- The chunk `put_and_get` operates on after the lookup-or-insert and the
`if !mf { chunk.len = data_last; }` update. -/
def chunkView (s : Table) (f : Frag) : IPV4Chunk :=
  let c0 := (lookupKey (ensureKey s f.key) f.key).getD IPV4Chunk.new
  if f.mf then c0 else { c0 with len := last16 f }

/-- The hole-splitting insertion step of `put_and_get` (lines 109-158 of
`src/sequence.rs`): find the overlapping hole; if the fragment is not
fully contained in it, the whole table is cleared (`none`); otherwise
remove the hole, append the residual hole(s) and copy the payload. -/
def insertFrag (s : Table) (f : Frag) : Option Table :=
  let s1 := ensureKey s f.key
  let c1 := chunkView s f
  match findOverlap c1.holes (first16 f) (last16 f) with
  | some (i, h) =>
      if first16 f < h.first ∨ h.last < last16 f then none
      else
        some (updateKey s1 f.key
          { c1 with
            holes := c1.holes.eraseIdx i ++
              ((if h.first < first16 f then [⟨h.first, first16 f⟩] else []) ++
               (if last16 f < h.last ∧ f.mf = true then [⟨last16 f, h.last⟩] else [])),
            data := writeBytes c1.data (first16 f) f.payload })
  | none =>
      some (updateKey s1 f.key { c1 with data := writeBytes c1.data (first16 f) f.payload })

/-- The bytes returned for a completed flow:
`buffer.data[..buffer.len as usize].to_vec()`. -/
def extractBytes (c : IPV4Chunk) : List Nat :=
  (List.range c.len).map c.data

/-- The completion scan at the end of `put_and_get` (lines 160-182): the
first flow whose hole list is empty has its bytes extracted; if the
extracted vector is non-empty the flow is removed and the bytes
returned. -/
def finishScan (s : Table) : Option (List Nat) × Table :=
  match List.find? (fun kc => kc.2.holes.isEmpty) s with
  | none => (none, s)
  | some (k, c) =>
      if (extractBytes c).isEmpty then (none, s)
      else (some (extractBytes c), eraseKey s k)

/-- `IPV4Seq::put_and_get` (src/sequence.rs lines 75-183): DF fragments
are returned directly; malformed fragments are dropped; otherwise the
fragment is inserted into its flow's chunk (possibly clearing the whole
table on an inconsistent overlap) and the completion scan runs. -/
def put_and_get (s : Table) (f : Frag) : Option (List Nat) × Table :=
  if f.df = true then (some f.payload, s)
  else if f.mf = true ∧ len16 f % 8 ≠ 0 then (none, s)
  else if last16 f < first16 f then (none, s)
  else
    match insertFrag s f with
    | none => (none, [])
    | some s2 => finishScan s2

/-- Submit a list of fragments in order, collecting each call's returned
datagram and the final table. -/
def runTrace (s : Table) : List Frag → List (Option (List Nat)) × Table
  | [] => ([], s)
  | f :: fs =>
      let r := put_and_get s f
      let rest := runTrace r.2 fs
      (r.1 :: rest.1, rest.2)

/-- A fragment whose in-memory copy is faithful to the Rust code: the
`u16` cast of the payload length does not truncate (a real IPv4 payload
is at most 65515 bytes; a longer one would make the source's
`copy_from_slice` panic). -/
def WFFrag (f : Frag) : Prop := f.payload.length < 65536

/-- Whether this call reaches the `copy_from_slice` line for its flow
(every non-DF, non-dropped fragment that does not trigger the
inconsistency reset is copied into the buffer). -/
def fragWrote (s : Table) (f : Frag) : Bool :=
  if f.df = true then false
  else if f.mf = true ∧ len16 f % 8 ≠ 0 then false
  else if last16 f < first16 f then false
  else
    match findOverlap (chunkView s f).holes (first16 f) (last16 f) with
    | some (_, h) => if first16 f < h.first ∨ h.last < last16 f then false else true
    | none => true

/-- Byte `b` of flow `f.key` is received (copied into the buffer) by this
call of `put_and_get`. -/
def writeHit (s : Table) (f : Frag) (b : Nat) : Prop :=
  fragWrote s f = true ∧ first16 f ≤ b ∧ b < first16 f + f.payload.length

/-- Received-bytes bookkeeping across one `put_and_get` call: a byte
counts as received for a key while the flow is still tracked, once this
or any earlier call copied it. -/
def nextW (s : Table) (W : IPV4Key → Nat → Prop) (f : Frag) : IPV4Key → Nat → Prop :=
  fun k b =>
    containsKey (put_and_get s f).2 k = true ∧
      (W k b ∨ (k = f.key ∧ writeHit s f b))

/-- Reassembler states reachable from the empty table, instrumented with
the per-flow set of received (copied) bytes. -/
inductive ReachW : Table → (IPV4Key → Nat → Prop) → Prop where
  | nil : ReachW [] (fun _ _ => False)
  | step : ∀ s W f, ReachW s W → WFFrag f → ReachW (put_and_get s f).2 (nextW s W f)

/-- A reassembler state reachable by some sequence of submissions from
the empty table. -/
def Reachable (s : Table) : Prop := ∃ W, ReachW s W

/-- The fragment's `[first, last)` range strictly overlaps some hole of
its flow's chunk (as seen by this call) without being fully contained in
that hole — the condition under which lines 119-124 of
`src/sequence.rs` clear the whole table. -/
def hasBadOverlap (s : Table) (f : Frag) : Bool :=
  (chunkView s f).holes.any (fun h =>
    decide ((first16 f < h.last ∧ h.first < last16 f) ∧
            (first16 f < h.first ∨ h.last < last16 f)))

/-! ## Ouster legacy decoder (`src/ouster.rs`) -/

/-- The `data_format` integers from the metadata JSON. -/
structure DataFormat where
  columns_per_frame : Nat
  columns_per_packet : Nat
  pixels_per_column : Nat
deriving DecidableEq

/-- Header of one measurement block (struct `HeaderBlock`). -/
structure HeaderBlock where
  timestamp : Nat
  measure_id : Nat
  frame_id : Nat
deriving DecidableEq

/-- One point appended to the decoder's point buffer.  The source pushes
the four f32 values computed by `calculate_xyz(range, reflect,
measure_id, channel)`; the float computation is abstracted and the
integer arguments are recorded instead. -/
structure PointArgs where
  range : Nat
  reflect : Nat
  measure_id : Nat
  channel : Nat
deriving DecidableEq

/-- One flush request sent to the writer thread (struct `FileData`):
the frame timestamp and point count serialized into the PCD header, and
the filename counter value used for the path.  `numPoints` corresponds
to the source's `current_points.len() / 4`. -/
structure FileReq where
  timestamp : Nat
  numPoints : Nat
  fileId : Nat
deriving DecidableEq

/-- The decoder state (struct `Legacy`): metadata format, frame-tracking
state, point buffer, completeness counter, broken flag, filename
counter, and the list of flush requests sent so far (the mpsc channel's
contents, in order). -/
structure LegacyState where
  fmt : DataFormat
  current_frame : Nat
  current_timestamp : Nat
  current_points : List PointArgs
  current_num_points : Nat
  current_broken : Bool
  id : Nat
  emitted : List FileReq
deriving DecidableEq

/-- `let len_column = 20 + pixels_per_column * 12`. -/
def lenColumn (fmt : DataFormat) : Nat := 20 + fmt.pixels_per_column * 12

/-- `let len_expected = columns_per_packet * len_column`. -/
def lenExpected (fmt : DataFormat) : Nat := fmt.columns_per_packet * lenColumn fmt

/-- `&data[off..off+n]` as a total list operation. -/
def slice (l : List Nat) (off n : Nat) : List Nat := (l.drop off).take n

/-- Little-endian `u16` read of the first two bytes. -/
def readU16LE (l : List Nat) : Nat := l.getD 0 0 + 256 * l.getD 1 0

/-- Little-endian `u32` read of the first four bytes. -/
def readU32LE (l : List Nat) : Nat :=
  l.getD 0 0 + 256 * l.getD 1 0 + 65536 * l.getD 2 0 + 16777216 * l.getD 3 0

/-- Little-endian `u64` read of the first eight bytes. -/
def readU64LE (l : List Nat) : Nat :=
  l.getD 0 0 + 256 * l.getD 1 0 + 65536 * l.getD 2 0 + 16777216 * l.getD 3 0 +
  4294967296 * l.getD 4 0 + 1099511627776 * l.getD 5 0 +
  281474976710656 * l.getD 6 0 + 72057594037927936 * l.getD 7 0

/-- The `(start..stop).step_by(step)` iterator of offsets. -/
def stepsIn (start stop step : Nat) : List Nat :=
  (List.range ((stop - start + (step - 1)) / step)).map (fun i => start + i * step)

/-- The trailing 32-bit block status word
(`&data[data.len() - 4..]` read as little-endian `u32`). -/
def blockStatus (data : List Nat) : Nat := readU32LE (List.drop (data.length - 4) data)

/-- Header fields of a measurement block: 64-bit timestamp at `[0,8)`,
16-bit measurement id at `[8,10)`, 16-bit frame id at `[10,12)`. -/
def blockHeader (data : List Nat) : HeaderBlock :=
  { timestamp := readU64LE data
    measure_id := readU16LE (List.drop 8 data)
    frame_id := readU16LE (List.drop 10 data) }

/-- `Legacy::save_pcd`: send a flush request carrying the current frame
timestamp and point count under the current filename counter, then
advance the counter.  (The PCD header text and raw byte body are
determined by these fields.) -/
def save_pcd (st : LegacyState) : LegacyState :=
  { st with
    emitted := st.emitted ++ [⟨st.current_timestamp, st.current_points.length, st.id⟩]
    id := st.id + 1 }

/-- The non-broken branch of `Legacy::set_current_state`.  On a frame-id
change the ending frame is flushed iff enough readings were seen, then
the accumulator is reset for the new frame; on the same frame the frame
timestamp is lowered to the block's if smaller. -/
def setStateNB (st : LegacyState) (h : HeaderBlock) : Bool × LegacyState :=
  if h.frame_id ≠ st.current_frame then
    let st1 :=
      if st.current_num_points ≥ st.fmt.columns_per_frame * st.fmt.pixels_per_column
      then save_pcd st else st
    (true, { st1 with
             current_points := []
             current_num_points := 0
             current_frame := h.frame_id
             current_timestamp := h.timestamp })
  else
    (true, if h.timestamp < st.current_timestamp
           then { st with current_timestamp := h.timestamp } else st)

/-- `Legacy::set_current_state` (src/ouster.rs lines 209-240).  The
source's self-recursive call after clearing the broken flag always takes
the non-broken branch, so it is inlined as `setStateNB`. -/
def set_current_state (st : LegacyState) (h : HeaderBlock) : Bool × LegacyState :=
  if st.current_broken = true then
    if h.frame_id ≠ st.current_frame then
      setStateNB { st with current_broken := false
                           current_points := []
                           current_num_points := 0 } h
    else (false, st)
  else setStateNB st h

/-- `Legacy::parse_data_block`: mask the low 20 bits of the first word as
the range (`<< 12 >> 12` on `u32`), read the reflectivity byte; an
invalid reading (range 0 or reflectivity 0) appends nothing, a valid one
appends one point record. -/
def parse_data_block (st : LegacyState) (chunk : List Nat) (measure_id channel : Nat) :
    LegacyState :=
  let range := readU32LE chunk * 4096 % 4294967296 / 4096
  let reflect := chunk.getD 4 0
  if range = 0 ∨ reflect = 0 then st
  else { st with current_points := st.current_points ++ [⟨range, reflect, measure_id, channel⟩] }

/-- One iteration of the channel loop in `parse_measure_block`:
`parse_data_block` followed by `current_num_points += 1` (the counter
advances for every channel, valid reading or not). -/
def channelStep (st : LegacyState) (chunk : List Nat) (measure_id channel : Nat) :
    LegacyState :=
  let st1 := parse_data_block st chunk measure_id channel
  { st1 with current_num_points := st1.current_num_points + 1 }

/-- `Legacy::parse_measure_block` (src/ouster.rs lines 154-189): check
the trailing status word, read the header, update the frame state, and
if the block is accepted run the channel loop over the 12-byte channel
blocks at offsets `16, 28, ...` below `len - 4`. -/
def parse_measure_block (st : LegacyState) (data : List Nat) : LegacyState :=
  if blockStatus data ≠ 0xffffffff then { st with current_broken := true }
  else
    let header := blockHeader data
    let r := set_current_state st header
    if r.1 = false then r.2
    else
      ((stepsIn 16 (data.length - 4) 12).enum).foldl
        (fun s p => channelStep s (slice data p.2 12) header.measure_id p.1) r.2

/-- The block offsets `Legacy::put` iterates:
`(0..data.len()).step_by(len_column)`. -/
def putOffsets (fmt : DataFormat) (data : List Nat) : List Nat :=
  stepsIn 0 data.length (lenColumn fmt)

/-- `Legacy::put` (src/ouster.rs lines 137-152).  A short payload only
sets the broken flag.  Otherwise the source slices
`data[offset..offset + len_column]` for every offset of `putOffsets`;
when some slice would run past the end of the payload the Rust code
panics, modelled here as `none`. -/
def put (st : LegacyState) (data : List Nat) : Option LegacyState :=
  if data.length < lenExpected st.fmt then some { st with current_broken := true }
  else if (putOffsets st.fmt data).all (fun o => decide (o + lenColumn st.fmt ≤ data.length)) then
    some ((putOffsets st.fmt data).foldl
      (fun s o => parse_measure_block s (slice data o (lenColumn st.fmt))) st)
  else none

end OusterParse

namespace OusterParse

/-! ## Hole-list infrastructure -/

/-- Two holes occupy disjoint (possibly adjacent) byte ranges. -/
def sep (a b : IPV4Hole) : Prop := a.last ≤ b.first ∨ b.last ≤ a.first

/-- Some hole of the list covers byte `b`. -/
def hCov (hs : List IPV4Hole) (b : Nat) : Prop :=
  ∃ h ∈ hs, h.first ≤ b ∧ b < h.last

/-- The hole list is a canonical decomposition of the set `U` of
unreceived bytes: nonempty bounded holes, pairwise separated, covering
exactly `U`, and maximal (no hole can be extended by one byte on either
side inside `U`). -/
structure HoleSet (hs : List IPV4Hole) (U : Nat → Prop) : Prop where
  bounds : ∀ h ∈ hs, h.first < h.last ∧ h.last ≤ 65535
  disj : List.Pairwise sep hs
  cov : ∀ b, U b ↔ hCov hs b
  maxl : ∀ h ∈ hs, h.first = 0 ∨ ¬ U (h.first - 1)
  maxr : ∀ h ∈ hs, h.last = 65535 ∨ ¬ U h.last

/-- Well-formed hole list of a tracked chunk: nonempty bounded holes,
pairwise disjoint. -/
structure HolesWF (hs : List IPV4Hole) : Prop where
  bounds : ∀ h ∈ hs, h.first < h.last ∧ h.last ≤ 65535
  disj : List.Pairwise sep hs

/-- The keys of the table are distinct (as for the source's `HashMap`). -/
def keysNodup (s : Table) : Prop := (s.map Prod.fst).Nodup

/-- The byte ranges of two fragments do not overlap. -/
def RangeDisj (a b : Frag) : Prop := last16 a ≤ first16 b ∨ last16 b ≤ first16 a

/-- No two fragments of the list are both final (MF clear). -/
def NoTwoFinal (fr : List Frag) : Prop :=
  List.Pairwise (fun a b => ¬(a.mf = false ∧ b.mf = false)) fr

/-- A valid fragment of datagram `D` on flow `k`: correct key, DF clear,
nonempty non-wrapping byte range inside `[0, D.length)`, the IP-mandated
length parity for non-final fragments, a final fragment ending exactly
at the datagram length, and a payload equal to the corresponding slice
of `D`. -/
def FragOk (D : List Nat) (k : IPV4Key) (g : Frag) : Prop :=
  g.key = k ∧ g.df = false ∧ first16 g < last16 g ∧ last16 g ≤ D.length ∧
  (g.mf = true → g.payload.length % 8 = 0) ∧
  (g.mf = false → last16 g = D.length) ∧
  g.payload = (D.drop (first16 g)).take (last16 g - first16 g)

/-- Whether a final (MF clear) fragment is still outstanding. -/
def pendingFinal (rem : List Frag) : Bool := rem.any (fun g => g.mf == false)

/-- Bytes still missing from the flow's chunk while the fragments `rem`
are outstanding: bytes covered by an outstanding fragment, plus (while
the final fragment is still outstanding) the buffer tail above the
datagram length. -/
def Upred (D : List Nat) (rem : List Frag) (b : Nat) : Prop :=
  (∃ g ∈ rem, first16 g ≤ b ∧ b < last16 g) ∨
  ((∃ g ∈ rem, g.mf = false) ∧ D.length ≤ b ∧ b < 65535)

instance (D : List Nat) (k : IPV4Key) (g : Frag) : Decidable (FragOk D k g) :=
  inferInstanceAs (Decidable (g.key = k ∧ g.df = false ∧ first16 g < last16 g ∧
    last16 g ≤ D.length ∧ (g.mf = true → g.payload.length % 8 = 0) ∧
    (g.mf = false → last16 g = D.length) ∧
    g.payload = (D.drop (first16 g)).take (last16 g - first16 g)))

instance : DecidableRel RangeDisj := fun a b =>
  inferInstanceAs (Decidable (last16 a ≤ first16 b ∨ last16 b ≤ first16 a))

instance (fr : List Frag) : Decidable (NoTwoFinal fr) :=
  inferInstanceAs (Decidable (List.Pairwise _ fr))

instance (f : Frag) : Decidable (WFFrag f) :=
  inferInstanceAs (Decidable (f.payload.length < 65536))

/-- Invariant of reachable instrumented states: distinct keys, received
bytes only for tracked flows, and every tracked chunk has a well-formed
(pairwise disjoint, nonempty, bounded) hole list whose holes contain
only bytes never received for that flow. -/
def INV6 (s : Table) (W : IPV4Key → Nat → Prop) : Prop :=
  keysNodup s ∧ (∀ q b, W q b → containsKey s q = true) ∧
  ∀ kc ∈ s, HolesWF kc.2.holes ∧
    ∀ h ∈ kc.2.holes, ∀ b, h.first ≤ b → b < h.last → ¬ W kc.1 b

theorem sep_symm {a b : IPV4Hole} (h : sep a b) : sep b a := h.elim Or.inr Or.inl

theorem sep_sub {a H r : IPV4Hole} (hsep : sep a H)
    (hrf : H.first ≤ r.first) (hrl : r.last ≤ H.last) : sep a r := by
  rcases hsep with h | h
  · exact Or.inl (le_trans h hrf)
  · exact Or.inr (le_trans hrl h)

theorem pairwise_sep_point {hs : List IPV4Hole} (hp : List.Pairwise sep hs)
    {a b : IPV4Hole} (ha : a ∈ hs) (hb : b ∈ hs) {x : Nat}
    (hxa : a.first ≤ x ∧ x < a.last) (hxb : b.first ≤ x ∧ x < b.last) : a = b := by
  induction hs with
  | nil => cases ha
  | cons hd tl ih =>
    rcases List.pairwise_cons.mp hp with ⟨hrel, htl⟩
    rcases List.mem_cons.mp ha with rfl | ha' <;> rcases List.mem_cons.mp hb with rfl | hb'
    · rfl
    · rcases hrel b hb' with h | h <;> omega
    · rcases hrel a ha' with h | h <;> omega
    · exact ih htl ha' hb'

theorem pairwise_decomp {pre post : List IPV4Hole} {H : IPV4Hole}
    (hp : List.Pairwise sep (pre ++ H :: post)) :
    List.Pairwise sep (pre ++ post) ∧ ∀ a ∈ pre ++ post, sep a H := by
  rcases List.pairwise_append.mp hp with ⟨hpre, hcons, hcross⟩
  rcases List.pairwise_cons.mp hcons with ⟨hH, hpost⟩
  constructor
  · refine List.pairwise_append.mpr ⟨hpre, hpost, ?_⟩
    intro a ha b hb
    exact hcross a ha b (List.mem_cons_of_mem _ hb)
  · intro a ha
    rcases List.mem_append.mp ha with ha' | ha'
    · exact hcross a ha' H (List.mem_cons_self _ _)
    · exact sep_symm (hH a ha')

theorem eraseIdx_decomp (pre post : List IPV4Hole) (h : IPV4Hole) :
    (pre ++ h :: post).eraseIdx pre.length = pre ++ post := by
  induction pre with
  | nil => rfl
  | cons a t ih => simpa [List.eraseIdx] using ih

theorem findOverlap_none_iff (hs : List IPV4Hole) (f l : Nat) :
    findOverlap hs f l = none ↔ ∀ h ∈ hs, ¬(f < h.last ∧ h.first < l) := by
  induction hs with
  | nil => simp [findOverlap]
  | cons hd tl ih =>
    by_cases hov : f < hd.last ∧ hd.first < l
    · simp [findOverlap, hov]
    · simp only [findOverlap, if_neg hov, Option.map_eq_none', ih]
      constructor
      · intro h h' hm
        rcases List.mem_cons.mp hm with rfl | hm'
        · exact hov
        · exact h h' hm'
      · intro h h' hm
        exact h h' (List.mem_cons_of_mem _ hm)

theorem findOverlap_some_spec {hs : List IPV4Hole} {f l : Nat} {i : Nat} {h : IPV4Hole}
    (hfo : findOverlap hs f l = some (i, h)) :
    ∃ pre post, hs = pre ++ h :: post ∧ pre.length = i ∧
      (f < h.last ∧ h.first < l) := by
  induction hs generalizing i with
  | nil => simp [findOverlap] at hfo
  | cons hd tl ih =>
    by_cases hov : f < hd.last ∧ hd.first < l
    · simp only [findOverlap, if_pos hov, Option.some.injEq, Prod.mk.injEq] at hfo
      obtain ⟨hi, hh⟩ := hfo
      subst hh
      exact ⟨[], tl, rfl, by simpa using hi, hov⟩
    · simp only [findOverlap, if_neg hov, Option.map_eq_some'] at hfo
      obtain ⟨⟨j, h'⟩, hrec, heq⟩ := hfo
      simp only [Prod.mk.injEq] at heq
      obtain ⟨hji, hh⟩ := heq
      subst hh
      obtain ⟨pre, post, hdec, hlen, hovl⟩ := ih hrec
      refine ⟨hd :: pre, post, by simp [hdec], ?_, hovl⟩
      simp only [List.length_cons]
      omega

theorem findOverlap_isSome {hs : List IPV4Hole} {f l : Nat} {h : IPV4Hole}
    (hh : h ∈ hs) (hov : f < h.last ∧ h.first < l) :
    ∃ i h', findOverlap hs f l = some (i, h') := by
  induction hs with
  | nil => cases hh
  | cons hd tl ih =>
    by_cases hov0 : f < hd.last ∧ hd.first < l
    · exact ⟨0, hd, by simp [findOverlap, hov0]⟩
    · rcases List.mem_cons.mp hh with rfl | hm
      · exact absurd hov hov0
      · rcases ih hm with ⟨i, h', hfo⟩
        exact ⟨i + 1, h', by simp [findOverlap, if_neg hov0, hfo]⟩

end OusterParse

namespace OusterParse

theorem holeSet_top {hs : List IPV4Hole} {U : Nat → Prop} (H : HoleSet hs U)
    {b : Nat} (hb : U b) : b < 65535 := by
  rcases (H.cov b).mp hb with ⟨h, hm, h1, h2⟩
  have := H.bounds h hm
  omega

theorem holeSet_contain {hs : List IPV4Hole} {U : Nat → Prop} (H : HoleSet hs U)
    {f l : Nat} (hfl : f < l) (hsub : ∀ b, f ≤ b → b < l → U b) :
    ∃ h ∈ hs, h.first ≤ f ∧ l ≤ h.last := by
  rcases (H.cov f).mp (hsub f le_rfl hfl) with ⟨h, hm, hf1, hf2⟩
  refine ⟨h, hm, hf1, ?_⟩
  by_contra hlt
  push_neg at hlt
  have hUl : U h.last := hsub h.last (by omega) hlt
  rcases H.maxr h hm with h65 | hnot
  · have := holeSet_top H hUl
    omega
  · exact hnot hUl

theorem holeSet_unique {hs : List IPV4Hole} {U : Nat → Prop} (H : HoleSet hs U)
    {h : IPV4Hole} (hh : h ∈ hs) {f l : Nat} (hfl : f < l)
    (h1 : h.first ≤ f) (h2 : l ≤ h.last) :
    ∀ h' ∈ hs, (f < h'.last ∧ h'.first < l) → h' = h := by
  intro h' hm' hov
  rcases le_or_lt h'.first f with hc | hc
  · exact pairwise_sep_point H.disj hm' hh ⟨hc, hov.1⟩ ⟨h1, by omega⟩
  · have hb := H.bounds h' hm'
    exact pairwise_sep_point H.disj hm' hh ⟨le_refl _, by omega⟩ ⟨by omega, by omega⟩

theorem holeSet_congr {hs : List IPV4Hole} {U1 U2 : Nat → Prop}
    (h : ∀ b, U1 b ↔ U2 b) (hh : HoleSet hs U1) : HoleSet hs U2 := by
  refine ⟨hh.bounds, hh.disj, fun b => (h b).symm.trans (hh.cov b), ?_, ?_⟩
  · intro h' hm
    rcases hh.maxl h' hm with h0 | hn
    · exact Or.inl h0
    · exact Or.inr (fun hu => hn ((h _).mpr hu))
  · intro h' hm
    rcases hh.maxr h' hm with h0 | hn
    · exact Or.inl h0
    · exact Or.inr (fun hu => hn ((h _).mpr hu))

theorem holeSet_empty_holes {hs : List IPV4Hole} {U : Nat → Prop}
    (hh : HoleSet hs U) (hUe : ∀ b, ¬ U b) : hs = [] := by
  cases hs with
  | nil => rfl
  | cons h t =>
    exfalso
    have hb := hh.bounds h (List.mem_cons_self _ _)
    exact hUe h.first ((hh.cov h.first).mpr ⟨h, List.mem_cons_self _ _, le_rfl, hb.1⟩)

theorem holeSet_update_mf {pre post : List IPV4Hole} {U : Nat → Prop} {H : IPV4Hole}
    {f l : Nat} (hhs : HoleSet (pre ++ H :: post) U) (hfl : f < l)
    (h1 : H.first ≤ f) (h2 : l ≤ H.last) :
    HoleSet ((pre ++ post) ++
        ((if H.first < f then [(⟨H.first, f⟩ : IPV4Hole)] else []) ++
         (if l < H.last then [(⟨l, H.last⟩ : IPV4Hole)] else [])))
      (fun b => U b ∧ ¬(f ≤ b ∧ b < l)) := by
  have hmemH : H ∈ pre ++ H :: post := List.mem_append.mpr (Or.inr (List.mem_cons_self _ _))
  have hbH := hhs.bounds H hmemH
  obtain ⟨hpp, hsepH⟩ := pairwise_decomp hhs.disj
  have hsurv : ∀ a ∈ pre ++ post, a ∈ pre ++ H :: post := by
    intro a ha
    rcases List.mem_append.mp ha with h | h
    · exact List.mem_append.mpr (Or.inl h)
    · exact List.mem_append.mpr (Or.inr (List.mem_cons_of_mem _ h))
  have hres : ∀ a ∈ ((if H.first < f then [(⟨H.first, f⟩ : IPV4Hole)] else []) ++
         (if l < H.last then [(⟨l, H.last⟩ : IPV4Hole)] else [])),
      (a = ⟨H.first, f⟩ ∧ H.first < f) ∨ (a = ⟨l, H.last⟩ ∧ l < H.last) := by
    intro a ha
    rcases List.mem_append.mp ha with h | h
    · by_cases hc : H.first < f
      · rw [if_pos hc] at h
        exact Or.inl ⟨List.mem_singleton.mp h, hc⟩
      · rw [if_neg hc] at h
        cases h
    · by_cases hc : l < H.last
      · rw [if_pos hc] at h
        exact Or.inr ⟨List.mem_singleton.mp h, hc⟩
      · rw [if_neg hc] at h
        cases h
  have hUin : ∀ b, H.first ≤ b → b < H.last → U b := by
    intro b hb1 hb2
    exact (hhs.cov b).mpr ⟨H, hmemH, hb1, hb2⟩
  refine ⟨?_, ?_, ?_, ?_, ?_⟩
  · -- bounds
    intro h hm
    rcases List.mem_append.mp hm with hs' | hr
    · exact hhs.bounds _ (hsurv _ hs')
    · rcases hres _ hr with ⟨rfl, hc⟩ | ⟨rfl, hc⟩ <;> simp <;> omega
  · -- pairwise separation
    refine List.pairwise_append.mpr ⟨hpp, ?_, ?_⟩
    · by_cases hc1 : H.first < f <;> by_cases hc2 : l < H.last <;>
        simp [hc1, hc2, List.pairwise_cons, sep] <;> omega
    · intro a ha b hb
      rcases hres _ hb with ⟨rfl, hc⟩ | ⟨rfl, hc⟩
      · exact sep_sub (hsepH a ha) le_rfl (by simp; omega)
      · exact sep_sub (hsepH a ha) (by simp; omega) le_rfl
  · -- coverage
    intro b
    constructor
    · rintro ⟨hU, hnot⟩
      rcases (hhs.cov b).mp hU with ⟨h, hm, hb1, hb2⟩
      rcases List.mem_append.mp hm with hpre | hrest
      · exact ⟨h, List.mem_append.mpr (Or.inl (List.mem_append.mpr (Or.inl hpre))), hb1, hb2⟩
      · rcases List.mem_cons.mp hrest with heq | hpost
        · -- the covering hole is H itself: b is in a residual
          rw [heq] at hb1 hb2
          rcases (by omega : b < f ∨ l ≤ b) with hbf | hbl
          · refine ⟨⟨H.first, f⟩, ?_, by simp; omega, by simp; omega⟩
            refine List.mem_append.mpr (Or.inr (List.mem_append.mpr (Or.inl ?_)))
            rw [if_pos (by omega)]
            exact List.mem_singleton.mpr rfl
          · refine ⟨⟨l, H.last⟩, ?_, by simp; omega, by simp; omega⟩
            refine List.mem_append.mpr (Or.inr (List.mem_append.mpr (Or.inr ?_)))
            rw [if_pos (by omega)]
            exact List.mem_singleton.mpr rfl
        · exact ⟨h, List.mem_append.mpr (Or.inl (List.mem_append.mpr (Or.inr hpost))), hb1, hb2⟩
    · rintro ⟨h, hm, hb1, hb2⟩
      rcases List.mem_append.mp hm with hs' | hr
      · refine ⟨(hhs.cov b).mpr ⟨h, hsurv _ hs', hb1, hb2⟩, ?_⟩
        rintro ⟨hfb, hbl⟩
        rcases hsepH _ hs' with hsep | hsep <;> omega
      · rcases hres _ hr with ⟨rfl, hc⟩ | ⟨rfl, hc⟩
        · simp only at hb1 hb2
          exact ⟨hUin b hb1 (by omega), by omega⟩
        · simp only at hb1 hb2
          exact ⟨hUin b (by omega) hb2, by omega⟩
  · -- left maximality
    intro h hm
    rcases List.mem_append.mp hm with hs' | hr
    · rcases hhs.maxl _ (hsurv _ hs') with h0 | hn
      · exact Or.inl h0
      · exact Or.inr (fun hu => hn hu.1)
    · rcases hres _ hr with ⟨rfl, hc⟩ | ⟨rfl, hc⟩
      · rcases hhs.maxl H hmemH with h0 | hn
        · exact Or.inl h0
        · exact Or.inr (fun hu => hn hu.1)
      · refine Or.inr ?_
        rintro ⟨_, hn⟩
        simp only at hn
        exact hn ⟨by omega, by omega⟩
  · -- right maximality
    intro h hm
    rcases List.mem_append.mp hm with hs' | hr
    · rcases hhs.maxr _ (hsurv _ hs') with h0 | hn
      · exact Or.inl h0
      · exact Or.inr (fun hu => hn hu.1)
    · rcases hres _ hr with ⟨rfl, hc⟩ | ⟨rfl, hc⟩
      · refine Or.inr ?_
        rintro ⟨_, hn⟩
        simp only at hn
        exact hn ⟨le_rfl, hfl⟩
      · rcases hhs.maxr H hmemH with h0 | hn
        · exact Or.inl h0
        · exact Or.inr (fun hu => hn hu.1)

end OusterParse

namespace OusterParse

theorem holeSet_update_fin {pre post : List IPV4Hole} {U : Nat → Prop} {H : IPV4Hole}
    {f l : Nat} (hhs : HoleSet (pre ++ H :: post) U) (hfl : f < l)
    (h1 : H.first ≤ f) (h2 : l ≤ H.last)
    (htop : ∀ b, l ≤ b → b < 65535 → U b) :
    HoleSet ((pre ++ post) ++
        ((if H.first < f then [(⟨H.first, f⟩ : IPV4Hole)] else []) ++ []))
      (fun b => U b ∧ ¬(f ≤ b ∧ b < 65535)) := by
  have hmemH : H ∈ pre ++ H :: post := List.mem_append.mpr (Or.inr (List.mem_cons_self _ _))
  have hbH := hhs.bounds H hmemH
  obtain ⟨hpp, hsepH⟩ := pairwise_decomp hhs.disj
  have hsurv : ∀ a ∈ pre ++ post, a ∈ pre ++ H :: post := by
    intro a ha
    rcases List.mem_append.mp ha with h | h
    · exact List.mem_append.mpr (Or.inl h)
    · exact List.mem_append.mpr (Or.inr (List.mem_cons_of_mem _ h))
  have hres : ∀ a ∈ ((if H.first < f then [(⟨H.first, f⟩ : IPV4Hole)] else []) ++
      ([] : List IPV4Hole)), a = ⟨H.first, f⟩ ∧ H.first < f := by
    intro a ha
    rw [List.append_nil] at ha
    by_cases hc : H.first < f
    · rw [if_pos hc] at ha
      exact ⟨List.mem_singleton.mp ha, hc⟩
    · rw [if_neg hc] at ha
      cases ha
  have hUin : ∀ b, H.first ≤ b → b < H.last → U b := by
    intro b hb1 hb2
    exact (hhs.cov b).mpr ⟨H, hmemH, hb1, hb2⟩
  have hH65 : H.last = 65535 := by
    rcases hhs.maxr H hmemH with h65 | hnot
    · exact h65
    · rcases Nat.lt_or_ge H.last 65535 with hlt | hge
      · exact absurd (htop H.last h2 hlt) hnot
      · omega
  refine ⟨?_, ?_, ?_, ?_, ?_⟩
  · -- bounds
    intro h hm
    rcases List.mem_append.mp hm with hs' | hr
    · exact hhs.bounds _ (hsurv _ hs')
    · obtain ⟨rfl, hc⟩ := hres _ hr
      simp
      omega
  · -- pairwise separation
    refine List.pairwise_append.mpr ⟨hpp, ?_, ?_⟩
    · by_cases hc : H.first < f <;> simp [hc]
    · intro a ha b hb
      obtain ⟨rfl, hc⟩ := hres _ hb
      exact sep_sub (hsepH a ha) le_rfl (by simp; omega)
  · -- coverage
    intro b
    constructor
    · rintro ⟨hU, hnot⟩
      have hb65 : b < 65535 := holeSet_top hhs hU
      rcases (hhs.cov b).mp hU with ⟨h, hm, hb1, hb2⟩
      rcases List.mem_append.mp hm with hpre | hrest
      · exact ⟨h, List.mem_append.mpr (Or.inl (List.mem_append.mpr (Or.inl hpre))), hb1, hb2⟩
      · rcases List.mem_cons.mp hrest with heq | hpost
        · rw [heq] at hb1 hb2
          have hbf : b < f := by omega
          refine ⟨⟨H.first, f⟩, ?_, by simp; omega, by simp; omega⟩
          refine List.mem_append.mpr (Or.inr (List.mem_append.mpr (Or.inl ?_)))
          rw [if_pos (by omega)]
          exact List.mem_singleton.mpr rfl
        · exact ⟨h, List.mem_append.mpr (Or.inl (List.mem_append.mpr (Or.inr hpost))), hb1, hb2⟩
    · rintro ⟨h, hm, hb1, hb2⟩
      rcases List.mem_append.mp hm with hs' | hr
      · have hbnd := hhs.bounds _ (hsurv _ hs')
        refine ⟨(hhs.cov b).mpr ⟨h, hsurv _ hs', hb1, hb2⟩, ?_⟩
        rintro ⟨hfb, hbl⟩
        rcases hsepH _ hs' with hsep | hsep <;> omega
      · obtain ⟨rfl, hc⟩ := hres _ hr
        simp only at hb1 hb2
        exact ⟨hUin b hb1 (by omega), by omega⟩
  · -- left maximality
    intro h hm
    rcases List.mem_append.mp hm with hs' | hr
    · rcases hhs.maxl _ (hsurv _ hs') with h0 | hn
      · exact Or.inl h0
      · exact Or.inr (fun hu => hn hu.1)
    · obtain ⟨rfl, hc⟩ := hres _ hr
      rcases hhs.maxl H hmemH with h0 | hn
      · exact Or.inl h0
      · exact Or.inr (fun hu => hn hu.1)
  · -- right maximality
    intro h hm
    rcases List.mem_append.mp hm with hs' | hr
    · rcases hhs.maxr _ (hsurv _ hs') with h0 | hn
      · exact Or.inl h0
      · exact Or.inr (fun hu => hn hu.1)
    · obtain ⟨rfl, hc⟩ := hres _ hr
      refine Or.inr ?_
      rintro ⟨_, hn⟩
      simp only at hn
      exact hn ⟨le_rfl, by omega⟩

end OusterParse

namespace OusterParse

/-! ## Arithmetic and slice lemmas -/

theorem first16_lt (f : Frag) : first16 f < 65536 := Nat.mod_lt _ (by norm_num)

theorem len16_lt (f : Frag) : len16 f < 65536 := Nat.mod_lt _ (by norm_num)

theorem last16_lt (f : Frag) : last16 f < 65536 := Nat.mod_lt _ (by norm_num)

theorem last16_no_wrap {f : Frag} (h : first16 f < last16 f) :
    last16 f = first16 f + len16 f := by
  have h1 := first16_lt f
  have h2 := len16_lt f
  unfold last16 at h ⊢
  omega

theorem fragOk_payload_len {D : List Nat} {k : IPV4Key} {g : Frag} (h : FragOk D k g) :
    g.payload.length = last16 g - first16 g := by
  obtain ⟨_, _, hfl, hlL, _, _, hp⟩ := h
  rw [hp, List.length_take, List.length_drop]
  omega

theorem fragOk_len16 {D : List Nat} {k : IPV4Key} {g : Frag} (h : FragOk D k g) :
    len16 g = g.payload.length := by
  rw [fragOk_payload_len h]
  unfold len16
  rw [fragOk_payload_len h]
  exact Nat.mod_eq_of_lt (by have := last16_lt g; omega)

theorem fragOk_last_add {D : List Nat} {k : IPV4Key} {g : Frag} (h : FragOk D k g) :
    last16 g = first16 g + g.payload.length := by
  rw [last16_no_wrap h.2.2.1, fragOk_len16 h]

theorem getD_drop_take (D : List Nat) (f n j : Nat) (hj : j < n) :
    ((D.drop f).take n).getD j 0 = D.getD (f + j) 0 := by
  rw [List.getD_eq_getElem?_getD, List.getD_eq_getElem?_getD,
    List.getElem?_take_of_lt hj, List.getElem?_drop]

theorem extract_eq {c : IPV4Chunk} {D : List Nat} (hlen : c.len = D.length)
    (hdata : ∀ b, b < D.length → c.data b = D.getD b 0) : extractBytes c = D := by
  unfold extractBytes
  rw [hlen]
  apply List.ext_getElem (by simp)
  intro i h1 h2
  simp only [List.getElem_map, List.getElem_range]
  rw [hdata i (by simpa using h2), List.getD_eq_getElem?_getD,
    List.getElem?_eq_getElem (by simpa using h2)]
  rfl

theorem pendingFinal_iff (rem : List Frag) :
    pendingFinal rem = true ↔ ∃ g ∈ rem, g.mf = false := by
  simp [pendingFinal, List.any_eq_true]

theorem writeBytes_in {d : Nat → Nat} {start : Nat} {p : List Nat} {i : Nat}
    (h1 : start ≤ i) (h2 : i < start + p.length) :
    writeBytes d start p i = p.getD (i - start) 0 := by
  simp [writeBytes, h1, h2]

theorem writeBytes_out {d : Nat → Nat} {start : Nat} {p : List Nat} {i : Nat}
    (h : ¬(start ≤ i ∧ i < start + p.length)) :
    writeBytes d start p i = d i := by
  simp only [writeBytes, if_neg h]

end OusterParse

namespace OusterParse

theorem Upred_step_mf {D : List Nat} {k : IPV4Key} {g : Frag} {tail : List Frag}
    (hokg : FragOk D k g) (hdisj : List.Pairwise RangeDisj (g :: tail))
    (hmf : g.mf = true) (b : Nat) :
    (Upred D (g :: tail) b ∧ ¬(first16 g ≤ b ∧ b < last16 g)) ↔ Upred D tail b := by
  obtain ⟨hdg, _⟩ := List.pairwise_cons.mp hdisj
  constructor
  · rintro ⟨hU, hnot⟩
    rcases hU with ⟨g', hm', hb1, hb2⟩ | ⟨⟨g', hm', hgf⟩, hDb, hb65⟩
    · rcases List.mem_cons.mp hm' with heq | hm''
      · rw [heq] at hb1 hb2
        exact absurd ⟨hb1, hb2⟩ hnot
      · exact Or.inl ⟨g', hm'', hb1, hb2⟩
    · rcases List.mem_cons.mp hm' with heq | hm''
      · rw [heq, hmf] at hgf
        exact Bool.noConfusion hgf
      · exact Or.inr ⟨⟨g', hm'', hgf⟩, hDb, hb65⟩
  · intro hU
    rcases hU with ⟨g', hm', hb1, hb2⟩ | ⟨⟨g', hm', hgf⟩, hDb, hb65⟩
    · refine ⟨Or.inl ⟨g', List.mem_cons_of_mem _ hm', hb1, hb2⟩, ?_⟩
      rintro ⟨hc1, hc2⟩
      rcases hdg g' hm' with hd | hd <;> omega
    · refine ⟨Or.inr ⟨⟨g', List.mem_cons_of_mem _ hm', hgf⟩, hDb, hb65⟩, ?_⟩
      rintro ⟨hc1, hc2⟩
      have := hokg.2.2.2.1
      omega

theorem Upred_step_fin {D : List Nat} {k : IPV4Key} {g : Frag} {tail : List Frag}
    (hD : D.length ≤ 65535) (hokg : FragOk D k g)
    (hok : ∀ g' ∈ tail, FragOk D k g')
    (hdisj : List.Pairwise RangeDisj (g :: tail))
    (hfin : NoTwoFinal (g :: tail))
    (hmf : g.mf = false) (b : Nat) :
    (Upred D (g :: tail) b ∧ ¬(first16 g ≤ b ∧ b < 65535)) ↔ Upred D tail b := by
  obtain ⟨hdg, _⟩ := List.pairwise_cons.mp hdisj
  obtain ⟨hfg, _⟩ := List.pairwise_cons.mp hfin
  have hlast : last16 g = D.length := hokg.2.2.2.2.2.1 hmf
  have hfirst : first16 g < last16 g := hokg.2.2.1
  constructor
  · rintro ⟨hU, hnot⟩
    rcases hU with ⟨g', hm', hb1, hb2⟩ | ⟨⟨g', hm', hgf⟩, hDb, hb65⟩
    · rcases List.mem_cons.mp hm' with heq | hm''
      · rw [heq] at hb1 hb2
        exact absurd ⟨hb1, by omega⟩ hnot
      · exact Or.inl ⟨g', hm'', hb1, hb2⟩
    · exact absurd ⟨by omega, hb65⟩ hnot
  · intro hU
    rcases hU with ⟨g', hm', hb1, hb2⟩ | ⟨⟨g', hm', hgf⟩, hDb, hb65⟩
    · have hd := hdg g' hm'
      have h1 := (hok g' hm').2.2.1
      have h2 := (hok g' hm').2.2.2.1
      refine ⟨Or.inl ⟨g', List.mem_cons_of_mem _ hm', hb1, hb2⟩, ?_⟩
      rintro ⟨hc1, hc2⟩
      rcases hd with hd | hd <;> omega
    · exact absurd ⟨hmf, hgf⟩ (hfg g' hm')

end OusterParse

namespace OusterParse

theorem run_inv (D : List Nat) (k : IPV4Key) (hL : D.length ≤ 65535) (hL0 : 0 < D.length) :
    ∀ (rem : List Frag) (c : IPV4Chunk),
      rem ≠ [] →
      (∀ g ∈ rem, FragOk D k g) →
      List.Pairwise RangeDisj rem →
      NoTwoFinal rem →
      c.len = (if pendingFinal rem = true then 65535 else D.length) →
      HoleSet c.holes (Upred D rem) →
      (∀ b, b < D.length → ¬ Upred D rem b → c.data b = D.getD b 0) →
      (runTrace [(k, c)] rem).1 = List.replicate (rem.length - 1) none ++ [some D] ∧
      (runTrace [(k, c)] rem).2 = [] := by
  intro rem
  induction rem with
  | nil => intro c hne; exact absurd rfl hne
  | cons g tail ih =>
    intro c _ hok hdisj hfin hlen hhs hdata
    have hokg := hok g (List.mem_cons_self _ _)
    obtain ⟨hkey, hdf, hfl, hlL, hpar, hfinlen, hpay⟩ := hokg
    have hokg' : FragOk D k g := hok g (List.mem_cons_self _ _)
    have hplen : g.payload.length = last16 g - first16 g := fragOk_payload_len hokg'
    have hladd : last16 g = first16 g + g.payload.length := fragOk_last_add hokg'
    -- the three drop guards do not fire
    have hg2 : ¬ (g.mf = true ∧ len16 g % 8 ≠ 0) := by
      rintro ⟨hmf, hne8⟩
      apply hne8
      unfold len16
      rw [Nat.mod_mod_of_dvd _ (by norm_num : (8:Nat) ∣ 65536)]
      exact hpar hmf
    have hg3 : ¬ (last16 g < first16 g) := by omega
    -- the chunk seen by the call
    have hviewH : (chunkView [(k, c)] g).holes = c.holes := by
      unfold chunkView
      rw [hkey]
      simp [ensureKey, containsKey, lookupKey]
      cases g.mf <;> simp
    have hviewD : (chunkView [(k, c)] g).data = c.data := by
      unfold chunkView
      rw [hkey]
      simp [ensureKey, containsKey, lookupKey]
      cases g.mf <;> simp
    have hviewL : (chunkView [(k, c)] g).len =
        (if g.mf = true then c.len else last16 g) := by
      unfold chunkView
      rw [hkey]
      simp [ensureKey, containsKey, lookupKey]
      cases g.mf <;> simp
    -- the fragment's range is inside the missing set, hence inside one hole
    have hUsub : ∀ b, first16 g ≤ b → b < last16 g → Upred D (g :: tail) b :=
      fun b h1 h2 => Or.inl ⟨g, List.mem_cons_self _ _, h1, h2⟩
    obtain ⟨H, hHmem, hH1, hH2⟩ := holeSet_contain hhs hfl hUsub
    obtain ⟨i, h0, hfo⟩ := findOverlap_isSome hHmem
      (⟨by omega, by omega⟩ : first16 g < H.last ∧ H.first < last16 g)
    obtain ⟨pre, post, hdec, hlenpre, hov0⟩ := findOverlap_some_spec hfo
    have hh0mem : h0 ∈ c.holes := by rw [hdec]; exact List.mem_append.mpr (Or.inr (List.mem_cons_self _ _))
    have hh0H : h0 = H := holeSet_unique hhs hHmem hfl hH1 hH2 h0 hh0mem hov0
    subst hh0H
    subst hlenpre
    -- evaluate the insertion
    have hnotbad : ¬ (first16 g < h0.first ∨ h0.last < last16 g) := by
      push_neg
      exact ⟨hH1, hH2⟩
    have hins : insertFrag [(k, c)] g = some [(k,
        ⟨writeBytes c.data (first16 g) g.payload,
         c.holes.eraseIdx pre.length ++
           ((if h0.first < first16 g then [⟨h0.first, first16 g⟩] else []) ++
            (if last16 g < h0.last ∧ g.mf = true then [⟨last16 g, h0.last⟩] else [])),
         (chunkView [(k, c)] g).len⟩)] := by
      simp only [insertFrag, hviewH, hfo, if_neg hnotbad]
      rw [hkey]
      have hupd : ensureKey [(k, c)] k = [(k, c)] := by
        simp [ensureKey, containsKey]
      rw [hupd]
      simp [updateKey, hviewD]
    set c2 : IPV4Chunk :=
      ⟨writeBytes c.data (first16 g) g.payload,
       c.holes.eraseIdx pre.length ++
         ((if h0.first < first16 g then [⟨h0.first, first16 g⟩] else []) ++
          (if last16 g < h0.last ∧ g.mf = true then [⟨last16 g, h0.last⟩] else [])),
       (chunkView [(k, c)] g).len⟩ with hc2def
    have hrun : put_and_get [(k, c)] g = finishScan [(k, c2)] := by
      unfold put_and_get
      rw [if_neg (by simp [hdf]), if_neg hg2, if_neg hg3, hins]
    -- the new hole set
    have hhs' : HoleSet c2.holes (Upred D tail) := by
      have hholes : c2.holes = (pre ++ post) ++
          ((if h0.first < first16 g then [⟨h0.first, first16 g⟩] else []) ++
           (if last16 g < h0.last ∧ g.mf = true then [⟨last16 g, h0.last⟩] else [])) := by
        rw [hc2def]
        simp only []
        rw [hdec, eraseIdx_decomp]
      rw [hdec] at hhs
      rcases Bool.eq_false_or_eq_true g.mf with hmf | hmf
      · have hupd := holeSet_update_mf hhs hfl hH1 hH2
        rw [hholes]
        simp only [hmf, eq_self_iff_true, and_true]
        refine holeSet_congr ?_ hupd
        intro b
        exact Upred_step_mf hokg' hdisj hmf b
      · -- final fragment: no residual hole after
        have htop : ∀ b, last16 g ≤ b → b < 65535 → Upred D (g :: tail) b := by
          intro b h1 h2
          refine Or.inr ⟨⟨g, List.mem_cons_self _ _, hmf⟩, ?_, h2⟩
          rw [← hfinlen hmf]
          exact h1
        have hupd := holeSet_update_fin hhs hfl hH1 hH2 htop
        rw [hholes]
        simp only [hmf, Bool.false_eq_true, and_false, if_false]
        refine holeSet_congr ?_ hupd
        intro b
        exact Upred_step_fin hL hokg' (fun g' hg' => hok g' (List.mem_cons_of_mem _ hg'))
          hdisj hfin hmf b
    -- the new recorded length
    have hfing : NoTwoFinal tail := (List.pairwise_cons.mp hfin).2
    have hlen' : c2.len = (if pendingFinal tail = true then 65535 else D.length) := by
      have : c2.len = (if g.mf = true then c.len else last16 g) := by
        rw [hc2def]
        exact hviewL
      rw [this]
      rcases Bool.eq_false_or_eq_true g.mf with hmf | hmf
      · have : pendingFinal (g :: tail) = pendingFinal tail := by
          simp [pendingFinal, hmf]
        rw [hmf, if_pos rfl, hlen, this]
      · have hpt : pendingFinal tail = false := by
          rcases Bool.eq_false_or_eq_true (pendingFinal tail) with h | h
          · obtain ⟨g', hm', hgf⟩ := (pendingFinal_iff tail).mp h
            exact absurd ⟨hmf, hgf⟩ ((List.pairwise_cons.mp hfin).1 g' hm')
          · exact h
        rw [hmf, hpt]
        simp [hfinlen hmf]
    -- the new data correctness
    have hdata' : ∀ b, b < D.length → ¬ Upred D tail b → c2.data b = D.getD b 0 := by
      intro b hbL hnotU
      have hc2d : c2.data = writeBytes c.data (first16 g) g.payload := by rw [hc2def]
      rw [hc2d]
      by_cases hin : first16 g ≤ b ∧ b < first16 g + g.payload.length
      · rw [writeBytes_in hin.1 hin.2, hpay,
          getD_drop_take D (first16 g) (last16 g - first16 g) (b - first16 g) (by omega)]
        congr 1
        omega
      · rw [writeBytes_out hin]
        apply hdata b hbL
        rintro (⟨g', hm', h1, h2⟩ | ⟨_, hDb, _⟩)
        · rcases List.mem_cons.mp hm' with heq | hm''
          · rw [heq] at h1 h2
            exact hin ⟨h1, by omega⟩
          · exact hnotU (Or.inl ⟨g', hm'', h1, h2⟩)
        · omega
    -- run the remaining fragments
    cases tail with
    | nil =>
      -- last fragment: the flow completes and the datagram is returned
      have hUe : ∀ b, ¬ Upred D [] b := by
        rintro b (⟨g', hg', _⟩ | ⟨⟨g', hg', _⟩, _⟩) <;> cases hg'
      have hhol : c2.holes = [] := holeSet_empty_holes hhs' hUe
      have hlenD : c2.len = D.length := by
        rw [hlen']
        simp [pendingFinal]
      have hext : extractBytes c2 = D :=
        extract_eq hlenD (fun b hb => hdata' b hb (hUe b))
      have hDne : D ≠ [] := by
        intro h
        rw [h] at hL0
        simp at hL0
      have hDie : (extractBytes c2).isEmpty = false := by
        rw [hext]
        cases D with
        | nil => exact absurd rfl hDne
        | cons a l => rfl
      have hfs : finishScan [(k, c2)] = (some D, []) := by
        unfold finishScan
        rw [List.find?_cons_of_pos _ (by show c2.holes.isEmpty = true; rw [hhol]; rfl)]
        show (if (extractBytes c2).isEmpty = true then (none, [(k, c2)])
              else (some (extractBytes c2), eraseKey [(k, c2)] k)) = (some D, [])
        rw [hDie]
        simp [hext, eraseKey]
      constructor
      · show (put_and_get [(k, c)] g).1 :: (runTrace (put_and_get [(k, c)] g).2 []).1 = _
        rw [hrun, hfs]
        simp [runTrace]
      · show (runTrace (put_and_get [(k, c)] g).2 []).2 = []
        rw [hrun, hfs]
        simp [runTrace]
    | cons g' t' =>
      -- intermediate fragment: nothing is returned
      have hu : Upred D (g' :: t') (first16 g') :=
        Or.inl ⟨g', List.mem_cons_self _ _, le_rfl, (hok g' (by simp)).2.2.1⟩
      have hne : c2.holes ≠ [] := by
        obtain ⟨h', hm', _⟩ := (hhs'.cov _).mp hu
        intro hnil
        rw [hnil] at hm'
        cases hm'
      have hfs : finishScan [(k, c2)] = (none, [(k, c2)]) := by
        unfold finishScan
        rw [List.find?_cons_of_neg _
          (by show ¬ c2.holes.isEmpty = true; intro hx; exact hne (List.isEmpty_iff.mp hx))]
        rfl
      obtain ⟨ihtrace, ihtable⟩ := ih c2 (by simp) (fun a ha => hok a (List.mem_cons_of_mem _ ha))
        (List.pairwise_cons.mp hdisj).2 hfing hlen' hhs' hdata'
      constructor
      · show (put_and_get [(k, c)] g).1 :: (runTrace (put_and_get [(k, c)] g).2 (g' :: t')).1 = _
        rw [hrun, hfs]
        simp only []
        rw [ihtrace]
        simp [List.replicate_succ]
      · show (runTrace (put_and_get [(k, c)] g).2 (g' :: t')).2 = []
        rw [hrun, hfs]
        exact ihtable

end OusterParse

namespace OusterParse

theorem fragOk_guards {D : List Nat} {k : IPV4Key} {g : Frag} (h : FragOk D k g) :
    ¬(g.mf = true ∧ len16 g % 8 ≠ 0) ∧ ¬ last16 g < first16 g := by
  constructor
  · rintro ⟨hmf, hne⟩
    apply hne
    unfold len16
    rw [Nat.mod_mod_of_dvd _ (by norm_num : (8:Nat) ∣ 65536)]
    exact h.2.2.2.2.1 hmf
  · have := h.2.2.1
    omega

theorem put_and_get_nil {g : Frag} (hdf : g.df = false)
    (hg2 : ¬(g.mf = true ∧ len16 g % 8 ≠ 0)) (hg3 : ¬ last16 g < first16 g) :
    put_and_get [] g = put_and_get [(g.key, IPV4Chunk.new)] g := by
  unfold put_and_get
  rw [if_neg (by simp [hdf]), if_neg hg2, if_neg hg3,
    if_neg (by simp [hdf]), if_neg hg2, if_neg hg3]
  have h1 : ensureKey [] g.key = [(g.key, IPV4Chunk.new)] := by
    simp [ensureKey, containsKey]
  have h2 : ensureKey [(g.key, IPV4Chunk.new)] g.key = [(g.key, IPV4Chunk.new)] := by
    simp [ensureKey, containsKey]
  have : insertFrag [] g = insertFrag [(g.key, IPV4Chunk.new)] g := by
    simp only [insertFrag, chunkView, h1, h2]
  rw [this]

theorem holeSet_init {D : List Nat} {k : IPV4Key} {fr : List Frag}
    (hL : D.length ≤ 65535)
    (hok : ∀ g ∈ fr, FragOk D k g)
    (hcov : ∀ b ∈ List.range D.length, ∃ g ∈ fr, first16 g ≤ b ∧ b < last16 g)
    (hone : ∃ g ∈ fr, g.mf = false) :
    HoleSet [⟨0, 65535⟩] (Upred D fr) := by
  refine ⟨?_, ?_, ?_, ?_, ?_⟩
  · intro h hm
    rw [List.mem_singleton.mp hm]
    exact ⟨by norm_num, le_rfl⟩
  · exact List.pairwise_singleton _ _
  · intro b
    constructor
    · rintro (⟨g, hg, h1, h2⟩ | ⟨_, hDb, hb65⟩)
      · have hlast := (hok g hg).2.2.2.1
        refine ⟨⟨0, 65535⟩, List.mem_singleton_self _, Nat.zero_le _, ?_⟩
        show b < 65535
        omega
      · refine ⟨⟨0, 65535⟩, List.mem_singleton_self _, Nat.zero_le _, ?_⟩
        show b < 65535
        omega
    · rintro ⟨h, hm, h1, h2⟩
      rw [List.mem_singleton.mp hm] at h1 h2
      simp only at h1 h2
      rcases Nat.lt_or_ge b D.length with hlt | hge
      · obtain ⟨g, hg, hx⟩ := hcov b (List.mem_range.mpr hlt)
        exact Or.inl ⟨g, hg, hx⟩
      · exact Or.inr ⟨hone, hge, h2⟩
  · intro h hm
    rw [List.mem_singleton.mp hm]
    exact Or.inl rfl
  · intro h hm
    rw [List.mem_singleton.mp hm]
    exact Or.inl rfl

end OusterParse

namespace OusterParse

/-- C1: for every set of valid, non-overlapping fragments that together
form one datagram (each fragment's nonempty range fully inside
`[0, D.length)`, exactly one final fragment recording the total length),
submitting them to the reassembler starting from the empty table, in any
order, returns the exact original datagram bytes from exactly one submit
call — the last one — and every other submit call in the sequence
returns nothing; afterwards the flow is gone from the table. -/
theorem C1_reassembly_exact_once (D : List Nat) (k : IPV4Key) (fr : List Frag)
    (hL : D.length ≤ 65535)
    (hok : ∀ g ∈ fr, FragOk D k g)
    (hcov : ∀ b ∈ List.range D.length, ∃ g ∈ fr, first16 g ≤ b ∧ b < last16 g)
    (hdisj : List.Pairwise RangeDisj fr)
    (hone : ∃ g ∈ fr, g.mf = false)
    (hfin : NoTwoFinal fr) :
    (runTrace [] fr).1 = List.replicate (fr.length - 1) none ++ [some D] ∧
    (runTrace [] fr).2 = [] := by
  obtain ⟨gf, hgf, hgmf⟩ := hone
  have hokf := hok gf hgf
  have hL0 : 0 < D.length := by
    have h1 := hokf.2.2.1
    have h2 := hokf.2.2.2.1
    omega
  cases fr with
  | nil => cases hgf
  | cons g0 rest =>
    have hok0 := hok g0 (List.mem_cons_self _ _)
    obtain ⟨hg2, hg3⟩ := fragOk_guards hok0
    have hbridge : put_and_get [] g0 = put_and_get [(k, IPV4Chunk.new)] g0 := by
      rw [put_and_get_nil hok0.2.1 hg2 hg3, hok0.1]
    have heq : runTrace [] (g0 :: rest) = runTrace [(k, IPV4Chunk.new)] (g0 :: rest) := by
      simp only [runTrace, hbridge]
    rw [heq]
    have hp : pendingFinal (g0 :: rest) = true := (pendingFinal_iff _).mpr ⟨gf, hgf, hgmf⟩
    apply run_inv D k hL hL0 (g0 :: rest) IPV4Chunk.new (by simp) hok hdisj hfin
    · show IPV4Chunk.new.len = _
      rw [hp, if_pos rfl]
      rfl
    · exact holeSet_init hL hok hcov ⟨gf, hgf, hgmf⟩
    · intro b hb hnot
      exfalso
      obtain ⟨g, hg, hx⟩ := hcov b (List.mem_range.mpr hb)
      exact hnot (Or.inl ⟨g, hg, hx⟩)

end OusterParse

namespace OusterParse

theorem C1_reassembly_exact_once_witness :
    (runTrace [] [⟨⟨1,2,17,5⟩, 1, [9,10,11,12,13,14,15,16], false, false⟩,
                  ⟨⟨1,2,17,5⟩, 0, [1,2,3,4,5,6,7,8], true, false⟩]).1 =
      List.replicate 1 none ++
        [some [1,2,3,4,5,6,7,8,9,10,11,12,13,14,15,16]] ∧
    (runTrace [] [⟨⟨1,2,17,5⟩, 1, [9,10,11,12,13,14,15,16], false, false⟩,
                  ⟨⟨1,2,17,5⟩, 0, [1,2,3,4,5,6,7,8], true, false⟩]).2 = [] :=
  C1_reassembly_exact_once [1,2,3,4,5,6,7,8,9,10,11,12,13,14,15,16] ⟨1,2,17,5⟩ _
    (by norm_num) (by decide) (by decide) (by decide) (by decide) (by decide)

end OusterParse

namespace OusterParse

/-- C7: for every fragment with the DONT_FRAGMENT flag set,
`put_and_get` returns that fragment's payload unchanged and the
reassembly table (all flows and their holes) is exactly the same after
the call as before, regardless of length, offset, or the MF flag. -/
theorem C7_df_bypass (s : Table) (f : Frag) (hdf : f.df = true) :
    put_and_get s f = (some f.payload, s) := by
  unfold put_and_get
  rw [if_pos hdf]

theorem C7_df_bypass_witness :
    put_and_get [(⟨9, 9, 17, 1⟩, IPV4Chunk.new)] ⟨⟨1, 2, 17, 5⟩, 3, [1, 2, 3], true, true⟩ =
      (some [1, 2, 3], [(⟨9, 9, 17, 1⟩, IPV4Chunk.new)]) :=
  C7_df_bypass _ _ rfl

/-- C8: a non-DF fragment with MF set whose (16-bit) payload length is
not a multiple of 8 is dropped with the table unchanged; a final
fragment (MF clear) with such a length is accepted — submitted alone at
offset 0 to the empty table it is returned as a complete datagram; and a
fragment whose `first = offset*8`, `last = first + length` computed in
16-bit wrapping arithmetic satisfy `last < first` is likewise dropped
with the table unchanged. -/
theorem C8_malformed_drops (s : Table) (f : Frag) :
    (f.df = false → f.mf = true → len16 f % 8 ≠ 0 → put_and_get s f = (none, s)) ∧
    (f.df = false → f.mf = false → f.offset = 0 → f.payload ≠ [] →
      f.payload.length < 65536 → f.payload.length % 8 ≠ 0 →
      put_and_get [] f = (some f.payload, [])) ∧
    (f.df = false → ¬(f.mf = true ∧ len16 f % 8 ≠ 0) → last16 f < first16 f →
      put_and_get s f = (none, s)) := by
  refine ⟨?_, ?_, ?_⟩
  · intro hdf hmf hpar
    unfold put_and_get
    rw [if_neg (by simp [hdf]), if_pos ⟨hmf, hpar⟩]
  · intro hdf hmf hoff hne hlt hpar
    have hf0 : first16 f = 0 := by
      unfold first16
      rw [hoff]
    have hlen16 : len16 f = f.payload.length := Nat.mod_eq_of_lt hlt
    have hlast : last16 f = f.payload.length := by
      unfold last16
      rw [hf0, hlen16]
      simpa using Nat.mod_eq_of_lt hlt
    have hL0 : 0 < f.payload.length := List.length_pos.mpr hne
    have he : ensureKey [] f.key = [(f.key, IPV4Chunk.new)] := by
      simp [ensureKey, containsKey]
    have hins : insertFrag [] f = some [(f.key,
        ⟨writeBytes (fun _ => 0) 0 f.payload, [], last16 f⟩)] := by
      have hcv : chunkView [] f = ⟨fun _ => 0, [⟨0, 65535⟩], last16 f⟩ := by
        unfold chunkView
        rw [he]
        simp only [lookupKey, if_pos rfl, Option.getD_some, hmf, Bool.false_eq_true, if_false]
        rfl
      simp only [insertFrag]
      rw [he, hcv]
      have hfo : findOverlap (⟨fun _ => 0, [⟨0, 65535⟩], last16 f⟩ : IPV4Chunk).holes
          (first16 f) (last16 f) = some (0, ⟨0, 65535⟩) := by
        show findOverlap [⟨0, 65535⟩] (first16 f) (last16 f) = _
        unfold findOverlap
        rw [if_pos]
        constructor
        · show first16 f < 65535
          omega
        · show 0 < last16 f
          omega
      simp only [hfo]
      rw [if_neg (show ¬(first16 f < 0 ∨ 65535 < last16 f) from by omega)]
      rw [if_neg (show ¬(0 < first16 f) from by omega)]
      rw [if_neg (show ¬(last16 f < 65535 ∧ f.mf = true) from by
        rw [hmf]
        simp)]
      rw [hf0]
      simp only [updateKey, eq_self_iff_true, if_true]
      rfl
    have hext : extractBytes ⟨writeBytes (fun _ => 0) 0 f.payload, [], last16 f⟩ =
        f.payload := by
      apply extract_eq
      · exact hlast
      · intro b hb
        show writeBytes (fun _ => 0) 0 f.payload b = _
        rw [writeBytes_in (Nat.zero_le _) (by omega), Nat.sub_zero]
    have hfs : finishScan [(f.key, ⟨writeBytes (fun _ => 0) 0 f.payload, [], last16 f⟩)] =
        (some f.payload, []) := by
      unfold finishScan
      rw [List.find?_cons_of_pos _ rfl]
      show (if (extractBytes ⟨writeBytes (fun _ => 0) 0 f.payload, [], last16 f⟩).isEmpty = true
            then _
            else (some (extractBytes ⟨writeBytes (fun _ => 0) 0 f.payload, [], last16 f⟩),
                  eraseKey [(f.key, ⟨writeBytes (fun _ => 0) 0 f.payload, [], last16 f⟩)] f.key)) = _
      rw [hext, if_neg (by simp [hne])]
      simp [eraseKey]
    unfold put_and_get
    rw [if_neg (by simp [hdf]), if_neg (by simp [hmf]), if_neg (by omega), hins]
    exact hfs
  · intro hdf hg2 hwrap
    unfold put_and_get
    rw [if_neg (by simp [hdf]), if_neg hg2, if_pos hwrap]

theorem C8_malformed_drops_witness :
    (put_and_get [] ⟨⟨1, 2, 17, 5⟩, 0, [1, 2, 3], true, false⟩ = (none, []) ∧
     put_and_get [] ⟨⟨1, 2, 17, 5⟩, 0, [1, 2, 3], false, false⟩ = (some [1, 2, 3], []) ∧
     put_and_get [] ⟨⟨1, 2, 17, 5⟩, 8191, [1, 2, 3, 4, 5, 6, 7, 8], true, false⟩ = (none, [])) :=
  ⟨(C8_malformed_drops [] _).1 rfl rfl (by decide),
   (C8_malformed_drops [] _).2.1 rfl rfl rfl (by decide) (by decide) (by decide),
   (C8_malformed_drops [] _).2.2 rfl (by decide) (by decide)⟩

end OusterParse

namespace OusterParse

/-! ## Association-table lemmas -/

theorem containsKey_iff (s : Table) (q : IPV4Key) :
    containsKey s q = true ↔ q ∈ s.map Prod.fst := by
  induction s with
  | nil => simp [containsKey]
  | cons kc t ih =>
    obtain ⟨k0, c0⟩ := kc
    simp only [containsKey, List.map_cons, List.mem_cons]
    by_cases h : k0 = q
    · simp [h]
    · rw [if_neg h]
      rw [ih]
      constructor
      · exact Or.inr
      · rintro (h' | h')
        · exact absurd h'.symm h
        · exact h'

theorem lookupKey_mem {s : Table} {q : IPV4Key} {c : IPV4Chunk}
    (h : lookupKey s q = some c) : (q, c) ∈ s := by
  induction s with
  | nil => simp [lookupKey] at h
  | cons kc t ih =>
    obtain ⟨k0, c0⟩ := kc
    simp only [lookupKey] at h
    by_cases hk : k0 = q
    · rw [if_pos hk] at h
      subst hk
      rw [Option.some_inj] at h
      rw [h]
      exact List.mem_cons_self _ _
    · rw [if_neg hk] at h
      exact List.mem_cons_of_mem _ (ih h)

theorem containsKey_lookup {s : Table} {q : IPV4Key} (h : containsKey s q = true) :
    ∃ c, lookupKey s q = some c := by
  induction s with
  | nil => simp [containsKey] at h
  | cons kc t ih =>
    obtain ⟨k0, c0⟩ := kc
    simp only [containsKey] at h
    simp only [lookupKey]
    by_cases hk : k0 = q
    · rw [if_pos hk]
      exact ⟨c0, rfl⟩
    · rw [if_neg hk] at h ⊢
      exact ih h

theorem containsKey_ensureKey (s : Table) (q : IPV4Key) :
    containsKey (ensureKey s q) q = true := by
  unfold ensureKey
  by_cases hc : containsKey s q = true
  · rw [if_pos hc]
    exact hc
  · rw [if_neg hc, containsKey_iff]
    simp

theorem mem_ensureKey {s : Table} {q : IPV4Key} {kc : IPV4Key × IPV4Chunk}
    (h : kc ∈ ensureKey s q) : kc ∈ s ∨ kc = (q, IPV4Chunk.new) := by
  unfold ensureKey at h
  by_cases hc : containsKey s q = true
  · rw [if_pos hc] at h
    exact Or.inl h
  · rw [if_neg hc] at h
    rcases List.mem_append.mp h with h' | h'
    · exact Or.inl h'
    · exact Or.inr (List.mem_singleton.mp h')

theorem mem_eraseKey {s : Table} {q : IPV4Key} {kc : IPV4Key × IPV4Chunk}
    (h : kc ∈ eraseKey s q) : kc ∈ s := by
  induction s with
  | nil => simpa [eraseKey] using h
  | cons kc0 t ih =>
    obtain ⟨k0, c0⟩ := kc0
    simp only [eraseKey] at h
    by_cases hk : k0 = q
    · rw [if_pos hk] at h
      exact List.mem_cons_of_mem _ h
    · rw [if_neg hk] at h
      rcases List.mem_cons.mp h with h' | h'
      · rw [h']
        exact List.mem_cons_self _ _
      · exact List.mem_cons_of_mem _ (ih h')

theorem mem_updateKey {s : Table} {q : IPV4Key} {c : IPV4Chunk}
    {kc : IPV4Key × IPV4Chunk} (hnd : keysNodup s) (h : kc ∈ updateKey s q c) :
    kc = (q, c) ∨ (kc ∈ s ∧ kc.1 ≠ q) := by
  induction s with
  | nil => simp [updateKey] at h
  | cons kc0 t ih =>
    obtain ⟨k0, c0⟩ := kc0
    have hnd0 : (k0 :: t.map Prod.fst).Nodup := by simpa [keysNodup] using hnd
    have hnd' : keysNodup t := (List.nodup_cons.mp hnd0).2
    by_cases hk : k0 = q
    · subst hk
      simp only [updateKey, if_pos rfl] at h
      rcases List.mem_cons.mp h with h' | h'
      · exact Or.inl h'
      · refine Or.inr ⟨List.mem_cons_of_mem _ h', ?_⟩
        intro he
        exact (List.nodup_cons.mp hnd0).1 (he ▸ List.mem_map_of_mem Prod.fst h')
    · simp only [updateKey, if_neg hk] at h
      rcases List.mem_cons.mp h with h' | h'
      · rw [h']
        exact Or.inr ⟨List.mem_cons_self _ _, by simpa using hk⟩
      · rcases ih hnd' h' with h'' | ⟨hm, hne⟩
        · exact Or.inl h''
        · exact Or.inr ⟨List.mem_cons_of_mem _ hm, hne⟩

theorem updateKey_keys (s : Table) (q : IPV4Key) (c : IPV4Chunk) :
    (updateKey s q c).map Prod.fst = s.map Prod.fst := by
  induction s with
  | nil => rfl
  | cons kc0 t ih =>
    obtain ⟨k0, c0⟩ := kc0
    simp only [updateKey]
    by_cases hk : k0 = q
    · rw [if_pos hk, hk]
      rfl
    · rw [if_neg hk]
      simp [ih]

theorem keysNodup_updateKey {s : Table} {q : IPV4Key} {c : IPV4Chunk}
    (hnd : keysNodup s) : keysNodup (updateKey s q c) := by
  unfold keysNodup
  rw [updateKey_keys]
  exact hnd

theorem keysNodup_eraseKey {s : Table} {q : IPV4Key} (hnd : keysNodup s) :
    keysNodup (eraseKey s q) := by
  induction s with
  | nil => exact hnd
  | cons kc0 t ih =>
    obtain ⟨k0, c0⟩ := kc0
    have hnd0 : (k0 :: t.map Prod.fst).Nodup := by simpa [keysNodup] using hnd
    have hnd' : keysNodup t := (List.nodup_cons.mp hnd0).2
    simp only [eraseKey]
    by_cases hk : k0 = q
    · rw [if_pos hk]
      exact hnd'
    · rw [if_neg hk]
      show ((k0, c0) :: eraseKey t q).map Prod.fst |>.Nodup
      rw [List.map_cons, List.nodup_cons]
      refine ⟨?_, ih hnd'⟩
      intro hx
      obtain ⟨kc, hm, he⟩ := List.mem_map.mp hx
      apply (List.nodup_cons.mp hnd0).1
      have he' : kc.1 = k0 := he
      rw [← he']
      exact List.mem_map_of_mem Prod.fst (mem_eraseKey hm)

theorem keysNodup_ensureKey {s : Table} {q : IPV4Key} (hnd : keysNodup s) :
    keysNodup (ensureKey s q) := by
  unfold ensureKey
  by_cases hc : containsKey s q = true
  · rw [if_pos hc]
    exact hnd
  · rw [if_neg hc]
    unfold keysNodup
    rw [List.map_append]
    refine List.Nodup.append hnd (List.nodup_singleton _) ?_
    intro x hx hq
    rw [List.mem_singleton.mp hq] at hx
    exact hc ((containsKey_iff s q).mpr hx)

end OusterParse

namespace OusterParse

theorem last16_eq_add {f : Frag} (hwf : WFFrag f) (h : ¬ last16 f < first16 f) :
    last16 f = first16 f + f.payload.length := by
  have h1 := first16_lt f
  have hlen : len16 f = f.payload.length := Nat.mod_eq_of_lt hwf
  have h3 : f.payload.length < 65536 := hwf
  unfold last16 at h ⊢
  rw [hlen] at h ⊢
  omega

theorem mem_hole_update {pre post : List IPV4Hole} {H : IPV4Hole} {f l : Nat} {mfb : Bool}
    {a : IPV4Hole}
    (h : a ∈ (pre ++ post) ++
      ((if H.first < f then [(⟨H.first, f⟩ : IPV4Hole)] else []) ++
       (if l < H.last ∧ mfb = true then [(⟨l, H.last⟩ : IPV4Hole)] else []))) :
    a ∈ pre ++ post ∨ (a = ⟨H.first, f⟩ ∧ H.first < f) ∨ (a = ⟨l, H.last⟩ ∧ l < H.last) := by
  rcases List.mem_append.mp h with h' | h'
  · exact Or.inl h'
  · rcases List.mem_append.mp h' with h'' | h''
    · by_cases hc : H.first < f
      · rw [if_pos hc] at h''
        exact Or.inr (Or.inl ⟨List.mem_singleton.mp h'', hc⟩)
      · rw [if_neg hc] at h''
        cases h''
    · by_cases hc : l < H.last ∧ mfb = true
      · rw [if_pos hc] at h''
        exact Or.inr (Or.inr ⟨List.mem_singleton.mp h'', hc.1⟩)
      · rw [if_neg hc] at h''
        cases h''

theorem holesWF_update {pre post : List IPV4Hole} {H : IPV4Hole}
    {f l : Nat} {mfb : Bool} (hwf : HolesWF (pre ++ H :: post))
    (h1 : H.first ≤ f) (h2 : l ≤ H.last) (hfl : f ≤ l) :
    HolesWF ((pre ++ post) ++
      ((if H.first < f then [(⟨H.first, f⟩ : IPV4Hole)] else []) ++
       (if l < H.last ∧ mfb = true then [(⟨l, H.last⟩ : IPV4Hole)] else []))) := by
  have hmemH : H ∈ pre ++ H :: post := List.mem_append.mpr (Or.inr (List.mem_cons_self _ _))
  have hbH := hwf.bounds H hmemH
  obtain ⟨hpp, hsepH⟩ := pairwise_decomp hwf.disj
  have hsurv : ∀ a ∈ pre ++ post, a ∈ pre ++ H :: post := by
    intro a ha
    rcases List.mem_append.mp ha with h | h
    · exact List.mem_append.mpr (Or.inl h)
    · exact List.mem_append.mpr (Or.inr (List.mem_cons_of_mem _ h))
  refine ⟨?_, ?_⟩
  · intro h hm
    rcases mem_hole_update hm with hs' | ⟨rfl, hc⟩ | ⟨rfl, hc⟩
    · exact hwf.bounds _ (hsurv _ hs')
    · refine ⟨hc, ?_⟩
      show f ≤ 65535
      omega
    · refine ⟨hc, ?_⟩
      show H.last ≤ 65535
      omega
  · refine List.pairwise_append.mpr ⟨hpp, ?_, ?_⟩
    · by_cases hc1 : H.first < f <;> by_cases hc2 : l < H.last ∧ mfb = true <;>
        simp [hc1, hc2, List.pairwise_cons, sep] <;> omega
    · intro a ha b hb
      rcases List.mem_append.mp hb with h'' | h''
      · by_cases hc : H.first < f
        · rw [if_pos hc] at h''
          rw [List.mem_singleton.mp h'']
          exact sep_sub (hsepH a ha) le_rfl (by show f ≤ H.last; omega)
        · rw [if_neg hc] at h''
          cases h''
      · by_cases hc : l < H.last ∧ mfb = true
        · rw [if_pos hc] at h''
          rw [List.mem_singleton.mp h'']
          exact sep_sub (hsepH a ha) (by show H.first ≤ l; omega) le_rfl
        · rw [if_neg hc] at h''
          cases h''

theorem nextW_elim {s : Table} {W : IPV4Key → Nat → Prop} {f : Frag} {q : IPV4Key} {b : Nat}
    (h : nextW s W f q b) :
    containsKey (put_and_get s f).2 q = true ∧
      (W q b ∨ (q = f.key ∧ (fragWrote s f = true ∧
        first16 f ≤ b ∧ b < first16 f + f.payload.length))) := h

theorem finishScan_table (s : Table) :
    (finishScan s).2 = s ∨ ∃ q, (finishScan s).2 = eraseKey s q := by
  rcases h : List.find? (fun kc => kc.2.holes.isEmpty) s with _ | ⟨q, c⟩
  · left
    simp [finishScan, h]
  · by_cases he : (extractBytes c).isEmpty = true
    · left
      simp [finishScan, h, he]
    · right
      exact ⟨q, by simp [finishScan, h, he]⟩

theorem INV6_unchanged {s : Table} {W : IPV4Key → Nat → Prop} {f : Frag}
    (hinv : INV6 s W) (hres : (put_and_get s f).2 = s)
    (hwrote : fragWrote s f = false) : INV6 (put_and_get s f).2 (nextW s W f) := by
  obtain ⟨hnd, _, hmain⟩ := hinv
  rw [hres]
  refine ⟨hnd, ?_, ?_⟩
  · intro q b hn
    rw [← hres]
    exact (nextW_elim hn).1
  · intro kc hm
    obtain ⟨hwfh, hfresh⟩ := hmain kc hm
    refine ⟨hwfh, ?_⟩
    intro h hh b h1 h2 hn
    rcases (nextW_elim hn).2 with hW | ⟨_, hhit, _⟩
    · exact hfresh h hh b h1 h2 hW
    · rw [hwrote] at hhit
      exact Bool.noConfusion hhit

end OusterParse

namespace OusterParse

theorem INV6_finish {s : Table} {W : IPV4Key → Nat → Prop} {f : Frag} {s2 : Table}
    (hr2 : (put_and_get s f).2 = (finishScan s2).2)
    (hA : keysNodup s2)
    (hB : ∀ kc ∈ s2, HolesWF kc.2.holes ∧
      ∀ h ∈ kc.2.holes, ∀ b, h.first ≤ b → b < h.last →
        ¬ W kc.1 b ∧ (kc.1 = f.key → ¬(first16 f ≤ b ∧ b < first16 f + f.payload.length))) :
    INV6 (put_and_get s f).2 (nextW s W f) := by
  have hsub : ∀ kc, kc ∈ (finishScan s2).2 → kc ∈ s2 := by
    intro kc hm
    rcases finishScan_table s2 with h | ⟨q, h⟩
    · rw [h] at hm
      exact hm
    · rw [h] at hm
      exact mem_eraseKey hm
  refine ⟨?_, ?_, ?_⟩
  · rw [hr2]
    rcases finishScan_table s2 with h | ⟨q, h⟩
    · rw [h]
      exact hA
    · rw [h]
      exact keysNodup_eraseKey hA
  · intro q b hn
    exact (nextW_elim hn).1
  · intro kc hm
    rw [hr2] at hm
    obtain ⟨hwfh, hfresh⟩ := hB kc (hsub kc hm)
    refine ⟨hwfh, ?_⟩
    intro h hh b h1 h2 hn
    rcases (nextW_elim hn).2 with hW | ⟨hk, _, hr1, hr2'⟩
    · exact (hfresh h hh b h1 h2).1 hW
    · exact (hfresh h hh b h1 h2).2 hk ⟨hr1, hr2'⟩

theorem INV6_step {s : Table} {W : IPV4Key → Nat → Prop} {f : Frag}
    (hwf : WFFrag f) (hinv : INV6 s W) :
    INV6 (put_and_get s f).2 (nextW s W f) := by
  obtain ⟨hnd, hdom, hmain⟩ := hinv
  by_cases hdf : f.df = true
  · exact INV6_unchanged ⟨hnd, hdom, hmain⟩ (by unfold put_and_get; rw [if_pos hdf])
      (by unfold fragWrote; rw [if_pos hdf])
  by_cases hg2 : f.mf = true ∧ len16 f % 8 ≠ 0
  · exact INV6_unchanged ⟨hnd, hdom, hmain⟩
      (by unfold put_and_get; rw [if_neg hdf, if_pos hg2])
      (by unfold fragWrote; rw [if_neg hdf, if_pos hg2])
  by_cases hg3 : last16 f < first16 f
  · exact INV6_unchanged ⟨hnd, hdom, hmain⟩
      (by unfold put_and_get; rw [if_neg hdf, if_neg hg2, if_pos hg3])
      (by unfold fragWrote; rw [if_neg hdf, if_neg hg2, if_pos hg3])
  have hladd : last16 f = first16 f + f.payload.length := last16_eq_add hwf hg3
  obtain ⟨c0, hc0⟩ := containsKey_lookup (containsKey_ensureKey s f.key)
  have hch : (chunkView s f).holes = c0.holes := by
    unfold chunkView
    rw [hc0]
    cases f.mf <;> rfl
  have hnd1 : keysNodup (ensureKey s f.key) := keysNodup_ensureKey hnd
  have hmain1 : ∀ kc ∈ ensureKey s f.key, HolesWF kc.2.holes ∧
      ∀ h ∈ kc.2.holes, ∀ b, h.first ≤ b → b < h.last → ¬ W kc.1 b := by
    intro kc hm
    by_cases hcs : containsKey s f.key = true
    · have he : ensureKey s f.key = s := by
        unfold ensureKey
        rw [if_pos hcs]
      rw [he] at hm
      exact hmain kc hm
    · have he : ensureKey s f.key = s ++ [(f.key, IPV4Chunk.new)] := by
        unfold ensureKey
        rw [if_neg hcs]
      rw [he] at hm
      rcases List.mem_append.mp hm with hm' | hm'
      · exact hmain kc hm'
      · rw [List.mem_singleton.mp hm']
        constructor
        · refine ⟨?_, List.pairwise_singleton _ _⟩
          intro h hh
          rw [List.mem_singleton.mp hh]
          exact ⟨by show 0 < PACKET_MAX_SIZE; norm_num [PACKET_MAX_SIZE],
                 by show PACKET_MAX_SIZE ≤ 65535; norm_num [PACKET_MAX_SIZE]⟩
        · intro h hh b h1 h2 hW
          exact absurd (hdom _ _ hW) (by simpa using hcs)
  have hc0wf : HolesWF c0.holes ∧
      ∀ h ∈ c0.holes, ∀ b, h.first ≤ b → b < h.last → ¬ W f.key b :=
    hmain1 (f.key, c0) (lookupKey_mem hc0)
  rcases hif : insertFrag s f with _ | s2
  · have hclr : (put_and_get s f).2 = [] := by
      unfold put_and_get
      rw [if_neg hdf, if_neg hg2, if_neg hg3, hif]
    refine ⟨?_, ?_, ?_⟩
    · rw [hclr]
      simp [keysNodup]
    · intro q b hn
      exact (nextW_elim hn).1
    · intro kc hm
      rw [hclr] at hm
      cases hm
  · have hr2 : (put_and_get s f).2 = (finishScan s2).2 := by
      unfold put_and_get
      rw [if_neg hdf, if_neg hg2, if_neg hg3, hif]
    simp only [insertFrag, hch] at hif
    rcases hfo : findOverlap c0.holes (first16 f) (last16 f) with _ | ⟨i, H⟩
    · -- no overlapping hole: holes unchanged, payload written outside all holes
      simp only [hfo] at hif
      obtain rfl := Option.some_inj.mp hif
      refine INV6_finish hr2 (keysNodup_updateKey hnd1) ?_
      intro kc hm
      rcases mem_updateKey hnd1 hm with rfl | ⟨hm', hne⟩
      · refine ⟨hc0wf.1, ?_⟩
        intro h hh b h1 h2
        have hh0 : h ∈ c0.holes := hh
        refine ⟨hc0wf.2 h hh0 b h1 h2, ?_⟩
        intro _ hhit
        apply (findOverlap_none_iff c0.holes (first16 f) (last16 f)).mp hfo h hh0
        constructor
        · omega
        · omega
      · obtain ⟨hwfh, hfr⟩ := hmain1 kc hm'
        exact ⟨hwfh, fun h hh b h1 h2 => ⟨hfr h hh b h1 h2, fun hk _ => absurd hk hne⟩⟩
    · -- an overlapping hole exists
      simp only [hfo] at hif
      by_cases hbad : first16 f < H.first ∨ H.last < last16 f
      · rw [if_pos hbad] at hif
        cases hif
      · rw [if_neg hbad] at hif
        obtain rfl := Option.some_inj.mp hif
        push_neg at hbad
        obtain ⟨hH1, hH2⟩ := hbad
        obtain ⟨pre, post, hdec, hlenpre, hov⟩ := findOverlap_some_spec hfo
        have hwf0 : HolesWF (pre ++ H :: post) := hdec ▸ hc0wf.1
        have hfl : first16 f ≤ last16 f := by omega
        have hHmem : H ∈ c0.holes := by
          rw [hdec]
          exact List.mem_append.mpr (Or.inr (List.mem_cons_self _ _))
        have hHb := hwf0.bounds H
          (List.mem_append.mpr (Or.inr (List.mem_cons_self _ _)))
        refine INV6_finish hr2 (keysNodup_updateKey hnd1) ?_
        intro kc hm
        rcases mem_updateKey hnd1 hm with rfl | ⟨hm', hne⟩
        · constructor
          · show HolesWF (c0.holes.eraseIdx i ++
              ((if H.first < first16 f then [(⟨H.first, first16 f⟩ : IPV4Hole)] else []) ++
               (if last16 f < H.last ∧ f.mf = true then [(⟨last16 f, H.last⟩ : IPV4Hole)] else [])))
            rw [hdec, ← hlenpre, eraseIdx_decomp]
            exact holesWF_update hwf0 hH1 hH2 hfl
          · intro h hh b h1 h2
            have hh2 : h ∈ c0.holes.eraseIdx i ++
                ((if H.first < first16 f then [(⟨H.first, first16 f⟩ : IPV4Hole)] else []) ++
                 (if last16 f < H.last ∧ f.mf = true then [(⟨last16 f, H.last⟩ : IPV4Hole)] else [])) := hh
            rw [hdec, ← hlenpre, eraseIdx_decomp] at hh2
            obtain ⟨hpp, hsepH⟩ := pairwise_decomp hwf0.disj
            rcases mem_hole_update hh2 with hs' | ⟨heq, hc⟩ | ⟨heq, hc⟩
            · have hmm : h ∈ c0.holes := by
                rw [hdec]
                rcases List.mem_append.mp hs' with hx | hx
                · exact List.mem_append.mpr (Or.inl hx)
                · exact List.mem_append.mpr (Or.inr (List.mem_cons_of_mem _ hx))
              refine ⟨hc0wf.2 h hmm b h1 h2, ?_⟩
              intro _ hhit
              rcases hsepH h hs' with hx | hx <;> omega
            · rw [heq] at h1 h2
              have hb1 : H.first ≤ b := h1
              have hb2 : b < first16 f := h2
              refine ⟨?_, ?_⟩
              · exact hc0wf.2 H hHmem b hb1 (by omega)
              · intro _ hhit
                omega
            · rw [heq] at h1 h2
              have hb1 : last16 f ≤ b := h1
              have hb2 : b < H.last := h2
              refine ⟨?_, ?_⟩
              · exact hc0wf.2 H hHmem b (by omega) hb2
              · intro _ hhit
                omega
        · obtain ⟨hwfh, hfr⟩ := hmain1 kc hm'
          exact ⟨hwfh, fun h hh b h1 h2 => ⟨hfr h hh b h1 h2, fun hk _ => absurd hk hne⟩⟩

end OusterParse

namespace OusterParse

theorem reachW_inv {s : Table} {W : IPV4Key → Nat → Prop} (h : ReachW s W) : INV6 s W := by
  induction h with
  | nil =>
    refine ⟨by simp [keysNodup], fun q b hb => hb.elim, ?_⟩
    intro kc hm
    cases hm
  | step s W f hr hwf ih => exact INV6_step hwf ih

theorem finishScan_some {s2 : Table} {v : List Nat} {s' : Table}
    (h : finishScan s2 = (some v, s')) :
    ∃ k c, (k, c) ∈ s2 ∧ c.holes = [] ∧ v = extractBytes c ∧ v ≠ [] ∧
      s' = eraseKey s2 k := by
  unfold finishScan at h
  rcases hf : List.find? (fun kc => kc.2.holes.isEmpty) s2 with _ | ⟨k, c⟩
  · rw [hf] at h
    simp at h
  · rw [hf] at h
    have hred : (if (extractBytes c).isEmpty = true then ((none : Option (List Nat)), s2)
        else (some (extractBytes c), eraseKey s2 k)) = (some v, s') := h
    by_cases he : (extractBytes c).isEmpty = true
    · rw [if_pos he] at hred
      simp at hred
    · rw [if_neg he] at hred
      obtain ⟨h1, h2⟩ := Prod.mk.injEq .. ▸ hred
      have hm := List.mem_of_find?_eq_some hf
      have hp0 := List.find?_some hf
      have hp : c.holes.isEmpty = true := hp0
      refine ⟨k, c, hm, List.isEmpty_iff.mp hp, ?_, ?_, ?_⟩
      · exact (Option.some_inj.mp h1).symm
      · intro hv
        rw [← Option.some_inj.mp h1] at hv
        exact he (by rw [hv]; rfl)
      · exact h2.symm

theorem put_and_get_some_complete {s : Table} {f : Frag} {v : List Nat} {s' : Table}
    (hdf : f.df = false) (h : put_and_get s f = (some v, s')) :
    ∃ s2 k c, insertFrag s f = some s2 ∧ (k, c) ∈ s2 ∧ c.holes = [] ∧
      v = extractBytes c ∧ v ≠ [] ∧ s' = eraseKey s2 k := by
  unfold put_and_get at h
  rw [if_neg (by simp [hdf])] at h
  by_cases hg2 : f.mf = true ∧ len16 f % 8 ≠ 0
  · rw [if_pos hg2] at h
    simp at h
  rw [if_neg hg2] at h
  by_cases hg3 : last16 f < first16 f
  · rw [if_pos hg3] at h
    simp at h
  rw [if_neg hg3] at h
  rcases hif : insertFrag s f with _ | s2
  · rw [hif] at h
    simp at h
  · rw [hif] at h
    obtain ⟨k, c, hm, hhol, hv, hvne, hs'⟩ := finishScan_some h
    exact ⟨s2, k, c, rfl, hm, hhol, hv, hvne, hs'⟩

/-- C6 (amended): in every reachable reassembler state the holes of each
tracked chunk are pairwise disjoint, nonempty, bounded byte ranges
covering only bytes of that chunk never received (copied) for its flow;
and a flow's datagram is returned as complete only if — not always if —
its hole list is empty: every returned datagram comes from a tracked
flow whose hole list is empty, which is then removed.  (The original
claim's "covering exactly" and "if and only if" are refuted by
`C6_holes_invariant_counterexample`.) -/
theorem C6_holes_invariant_amended (s : Table) (W : IPV4Key → Nat → Prop)
    (hr : ReachW s W) :
    (∀ kc ∈ s, (∀ h ∈ kc.2.holes, h.first < h.last ∧ h.last ≤ 65535) ∧
      List.Pairwise sep kc.2.holes ∧
      (∀ h ∈ kc.2.holes, ∀ b, h.first ≤ b → b < h.last → ¬ W kc.1 b)) ∧
    (∀ f v s', f.df = false → put_and_get s f = (some v, s') →
      ∃ s2 k c, insertFrag s f = some s2 ∧ (k, c) ∈ s2 ∧ c.holes = [] ∧
        v = extractBytes c ∧ v ≠ [] ∧ s' = eraseKey s2 k) := by
  obtain ⟨_, _, hmain⟩ := reachW_inv hr
  constructor
  · intro kc hm
    obtain ⟨hwfh, hfresh⟩ := hmain kc hm
    exact ⟨hwfh.bounds, hwfh.disj, hfresh⟩
  · intro f v s' hdf h
    exact put_and_get_some_complete hdf h

end OusterParse

namespace OusterParse

theorem C6_holes_invariant_amended_witness :
    (∀ kc ∈ (put_and_get [] ⟨⟨1, 2, 17, 5⟩, 2, [1, 2, 3, 4, 5, 6, 7, 8], true, false⟩).2,
      (∀ h ∈ kc.2.holes, h.first < h.last ∧ h.last ≤ 65535) ∧
      List.Pairwise sep kc.2.holes ∧
      (∀ h ∈ kc.2.holes, ∀ b, h.first ≤ b → b < h.last →
        ¬ nextW [] (fun _ _ => False)
          ⟨⟨1, 2, 17, 5⟩, 2, [1, 2, 3, 4, 5, 6, 7, 8], true, false⟩ kc.1 b)) ∧
    (∀ f v s', f.df = false →
      put_and_get
        (put_and_get [] ⟨⟨1, 2, 17, 5⟩, 2, [1, 2, 3, 4, 5, 6, 7, 8], true, false⟩).2 f =
        (some v, s') →
      ∃ s2 k c, insertFrag
          (put_and_get [] ⟨⟨1, 2, 17, 5⟩, 2, [1, 2, 3, 4, 5, 6, 7, 8], true, false⟩).2 f =
          some s2 ∧ (k, c) ∈ s2 ∧ c.holes = [] ∧
        v = extractBytes c ∧ v ≠ [] ∧ s' = eraseKey s2 k) :=
  C6_holes_invariant_amended _ _
    (ReachW.step [] (fun _ _ => False) _ ReachW.nil (by decide))

/-- C6 counterexample, refuting the claim as stated on the code.  First
scenario: submit an MF fragment covering bytes `[16, 24)` and then a
final fragment covering `[0, 8)` on the same flow.  The final fragment's
hole split drops the residual hole above its end (`if data_last <
hole.last && mf` in the source), so afterwards the tracked chunk's holes
are exactly `[(24, 65535)]` — byte 8 of that chunk was never received
(`¬ nextW … 8`) yet lies in no hole, refuting "covering exactly the
bytes not yet received".  Second scenario: after a final fragment
`[8, 16)`, an empty final fragment (offset 0, empty payload) sets the
recorded length to 0, and an MF fragment `[0, 8)` then empties the hole
list; the completion scan extracts 0 bytes, treats the result as "not
complete", and returns nothing — a tracked flow with an empty hole list
whose datagram is never returned, refuting "returned as complete if and
only if its hole list is empty". -/
theorem C6_holes_invariant_counterexample :
    ((lookupKey (put_and_get
        (put_and_get [] ⟨⟨1, 2, 17, 5⟩, 2, [1, 2, 3, 4, 5, 6, 7, 8], true, false⟩).2
        ⟨⟨1, 2, 17, 5⟩, 0, [9, 10, 11, 12, 13, 14, 15, 16], false, false⟩).2
        ⟨1, 2, 17, 5⟩).map IPV4Chunk.holes = some [⟨24, 65535⟩] ∧
     ReachW (put_and_get
        (put_and_get [] ⟨⟨1, 2, 17, 5⟩, 2, [1, 2, 3, 4, 5, 6, 7, 8], true, false⟩).2
        ⟨⟨1, 2, 17, 5⟩, 0, [9, 10, 11, 12, 13, 14, 15, 16], false, false⟩).2
        (nextW (put_and_get []
            ⟨⟨1, 2, 17, 5⟩, 2, [1, 2, 3, 4, 5, 6, 7, 8], true, false⟩).2
          (nextW [] (fun _ _ => False)
            ⟨⟨1, 2, 17, 5⟩, 2, [1, 2, 3, 4, 5, 6, 7, 8], true, false⟩)
          ⟨⟨1, 2, 17, 5⟩, 0, [9, 10, 11, 12, 13, 14, 15, 16], false, false⟩) ∧
     ¬ nextW (put_and_get []
          ⟨⟨1, 2, 17, 5⟩, 2, [1, 2, 3, 4, 5, 6, 7, 8], true, false⟩).2
        (nextW [] (fun _ _ => False)
          ⟨⟨1, 2, 17, 5⟩, 2, [1, 2, 3, 4, 5, 6, 7, 8], true, false⟩)
        ⟨⟨1, 2, 17, 5⟩, 0, [9, 10, 11, 12, 13, 14, 15, 16], false, false⟩ ⟨1, 2, 17, 5⟩ 8) ∧
    ((runTrace [] [⟨⟨1, 2, 17, 5⟩, 1, [1, 2, 3, 4, 5, 6, 7, 8], false, false⟩,
                   ⟨⟨1, 2, 17, 5⟩, 0, [], false, false⟩,
                   ⟨⟨1, 2, 17, 5⟩, 0, [9, 10, 11, 12, 13, 14, 15, 16], true, false⟩]).1 =
        [none, none, none] ∧
     ((lookupKey (runTrace [] [⟨⟨1, 2, 17, 5⟩, 1, [1, 2, 3, 4, 5, 6, 7, 8], false, false⟩,
                   ⟨⟨1, 2, 17, 5⟩, 0, [], false, false⟩,
                   ⟨⟨1, 2, 17, 5⟩, 0, [9, 10, 11, 12, 13, 14, 15, 16], true, false⟩]).2
        ⟨1, 2, 17, 5⟩).map IPV4Chunk.holes) = some []) := by
  refine ⟨⟨?_, ?_, ?_⟩, ?_, ?_⟩
  · rfl
  · exact ReachW.step _ _ _
      (ReachW.step [] (fun _ _ => False) _ ReachW.nil (by decide)) (by decide)
  · intro hn
    rcases (nextW_elim hn).2 with hW | ⟨_, _, _, hr2⟩
    · rcases (nextW_elim hW).2 with hW0 | ⟨_, _, hr1, _⟩
      · exact hW0
      · exact absurd hr1 (by decide)
    · exact absurd hr2 (by decide)
  · rfl
  · rfl

end OusterParse

namespace OusterParse

/-- C2: in every reachable reassembler state, submitting a (non-DF,
non-dropped) fragment whose byte range strictly overlaps some hole of
its flow's chunk without being fully contained in that hole empties the
entire flow table — every flow, including unrelated still-incomplete
flows, is discarded — and returns nothing. -/
theorem C2_inconsistent_clears_table (s : Table) (f : Frag)
    (hr : Reachable s) (hdf : f.df = false)
    (hg2 : ¬(f.mf = true ∧ len16 f % 8 ≠ 0)) (hg3 : ¬ last16 f < first16 f)
    (hbad : hasBadOverlap s f = true) :
    put_and_get s f = (none, []) := by
  obtain ⟨W, hrw⟩ := hr
  obtain ⟨hnd, hdom, hmain⟩ := reachW_inv hrw
  obtain ⟨c0, hc0⟩ := containsKey_lookup (containsKey_ensureKey s f.key)
  have hch : (chunkView s f).holes = c0.holes := by
    unfold chunkView
    rw [hc0]
    cases f.mf <;> rfl
  have hc0wf : HolesWF c0.holes := by
    by_cases hcs : containsKey s f.key = true
    · have he : ensureKey s f.key = s := by
        unfold ensureKey
        rw [if_pos hcs]
      exact (hmain (f.key, c0) (by rw [← he]; exact lookupKey_mem hc0)).1
    · have he : ensureKey s f.key = s ++ [(f.key, IPV4Chunk.new)] := by
        unfold ensureKey
        rw [if_neg hcs]
      have hm := lookupKey_mem hc0
      rw [he] at hm
      rcases List.mem_append.mp hm with hm' | hm'
      · exfalso
        apply hcs
        rw [containsKey_iff]
        exact List.mem_map_of_mem Prod.fst hm'
      · have hcn : c0 = IPV4Chunk.new := congrArg Prod.snd (List.mem_singleton.mp hm')
        rw [hcn]
        refine ⟨?_, List.pairwise_singleton _ _⟩
        intro h hh
        rw [List.mem_singleton.mp hh]
        exact ⟨by show 0 < PACKET_MAX_SIZE; norm_num [PACKET_MAX_SIZE],
               by show PACKET_MAX_SIZE ≤ 65535; norm_num [PACKET_MAX_SIZE]⟩
  have hbad' : ∃ h ∈ c0.holes, (first16 f < h.last ∧ h.first < last16 f) ∧
      (first16 f < h.first ∨ h.last < last16 f) := by
    unfold hasBadOverlap at hbad
    rw [hch] at hbad
    obtain ⟨h, hm, hp⟩ := List.any_eq_true.mp hbad
    exact ⟨h, hm, of_decide_eq_true hp⟩
  obtain ⟨h, hm, hov, hnc⟩ := hbad'
  obtain ⟨i, h0, hfo⟩ := findOverlap_isSome hm hov
  obtain ⟨pre, post, hdec, hlenpre, hov0⟩ := findOverlap_some_spec hfo
  have hh0mem : h0 ∈ c0.holes := by
    rw [hdec]
    exact List.mem_append.mpr (Or.inr (List.mem_cons_self _ _))
  have hnc0 : first16 f < h0.first ∨ h0.last < last16 f := by
    by_contra hcont
    push_neg at hcont
    obtain ⟨hc1, hc2⟩ := hcont
    have hfl : first16 f < last16 f := by
      rcases hnc with hx | hx <;> omega
    have heq : h = h0 := by
      rcases le_or_lt h.first (first16 f) with hcc | hcc
      · exact pairwise_sep_point hc0wf.disj hm hh0mem
          (x := first16 f) ⟨hcc, hov.1⟩ ⟨hc1, by omega⟩
      · have hbh := hc0wf.bounds h hm
        exact pairwise_sep_point hc0wf.disj hm hh0mem
          (x := h.first) ⟨le_rfl, hbh.1⟩ ⟨by omega, by omega⟩
    rw [heq] at hnc
    rcases hnc with hx | hx <;> omega
  have hins : insertFrag s f = none := by
    simp only [insertFrag, hch, hfo]
    rw [if_pos hnc0]
  unfold put_and_get
  rw [if_neg (by simp [hdf]), if_neg hg2, if_neg hg3, hins]

theorem C2_inconsistent_clears_table_witness :
    put_and_get
      (runTrace [] [⟨⟨1, 2, 17, 5⟩, 2, [1, 2, 3, 4, 5, 6, 7, 8], true, false⟩,
                    ⟨⟨3, 4, 17, 9⟩, 0, [1, 2, 3, 4, 5, 6, 7, 8], true, false⟩]).2
      ⟨⟨1, 2, 17, 5⟩, 1,
        [1, 2, 3, 4, 5, 6, 7, 8, 9, 10, 11, 12, 13, 14, 15, 16, 17, 18, 19, 20, 21, 22, 23, 24],
        true, false⟩ = (none, []) :=
  C2_inconsistent_clears_table _ _
    ⟨_, ReachW.step _ _ _
        (ReachW.step [] (fun _ _ => False) _ ReachW.nil (by decide)) (by decide)⟩
    rfl (by decide) (by decide) (by decide)

end OusterParse

namespace OusterParse

/-! ## Decoder lemmas -/

theorem lenColumn_pos (fmt : DataFormat) : 0 < lenColumn fmt := by
  unfold lenColumn
  omega

theorem putOffsets_length (fmt : DataFormat) (data : List Nat) :
    (putOffsets fmt data).length =
      (data.length + (lenColumn fmt - 1)) / lenColumn fmt := by
  simp [putOffsets, stepsIn]

/-- C3: when the decoder is not broken and a block arrives whose frame
id differs from the current frame, the block is accepted and the ending
frame is flushed — one file request appended, carrying the frame
timestamp and point count, and the filename counter advanced by one —
if and only if the points-seen counter is at least
`columns_per_frame * pixels_per_column`; otherwise the accumulated
points are discarded with no file emitted and no counter advance.  In
both cases the accumulator is reset for the new frame. -/
theorem C3_flush_iff_enough_points (st : LegacyState) (h : HeaderBlock)
    (hb : st.current_broken = false) (hf : h.frame_id ≠ st.current_frame) :
    set_current_state st h =
      (true,
       if st.current_num_points ≥ st.fmt.columns_per_frame * st.fmt.pixels_per_column
       then { st with
              emitted := st.emitted ++
                [⟨st.current_timestamp, st.current_points.length, st.id⟩],
              id := st.id + 1,
              current_points := [], current_num_points := 0,
              current_frame := h.frame_id, current_timestamp := h.timestamp }
       else { st with
              current_points := [], current_num_points := 0,
              current_frame := h.frame_id, current_timestamp := h.timestamp }) := by
  unfold set_current_state
  rw [if_neg (by simp [hb])]
  unfold setStateNB save_pcd
  rw [if_pos hf]
  by_cases hn : st.current_num_points ≥ st.fmt.columns_per_frame * st.fmt.pixels_per_column
  · rw [if_pos hn, if_pos hn]
  · rw [if_neg hn, if_neg hn]

theorem C3_flush_iff_enough_points_witness :
    set_current_state
      ⟨⟨2, 1, 1⟩, 5, 100, [⟨7, 7, 0, 0⟩, ⟨8, 8, 1, 0⟩], 2, false, 7, []⟩ ⟨50, 0, 6⟩ =
      (true, ⟨⟨2, 1, 1⟩, 6, 50, [], 0, false, 8, [⟨100, 2, 7⟩]⟩) ∧
    set_current_state
      ⟨⟨2, 1, 1⟩, 5, 100, [⟨7, 7, 0, 0⟩], 1, false, 7, []⟩ ⟨50, 0, 6⟩ =
      (true, ⟨⟨2, 1, 1⟩, 6, 50, [], 0, false, 7, []⟩) :=
  ⟨C3_flush_iff_enough_points _ _ rfl (by decide),
   C3_flush_iff_enough_points _ _ rfl (by decide)⟩

/-- C5: for a channel block whose masked 20-bit range is 0 or whose
reflectivity byte is 0, the channel step of an accepted measurement
block appends nothing to the point buffer yet still increments the
points-seen completeness counter by one. -/
theorem C5_invalid_reading_counts (st : LegacyState) (chunk : List Nat)
    (measure_id channel : Nat)
    (hinv : readU32LE chunk * 4096 % 4294967296 / 4096 = 0 ∨ chunk.getD 4 0 = 0) :
    channelStep st chunk measure_id channel =
      { st with current_num_points := st.current_num_points + 1 } := by
  simp only [channelStep, parse_data_block]
  rw [if_pos hinv]

theorem C5_invalid_reading_counts_witness :
    channelStep ⟨⟨2, 1, 1⟩, 5, 100, [⟨7, 7, 0, 0⟩], 1, false, 7, []⟩
        [0, 0, 0, 0, 9, 0, 0, 0, 0, 0, 0, 0] 3 0 =
      ⟨⟨2, 1, 1⟩, 5, 100, [⟨7, 7, 0, 0⟩], 2, false, 7, []⟩ ∧
    channelStep ⟨⟨2, 1, 1⟩, 5, 100, [⟨7, 7, 0, 0⟩], 1, false, 7, []⟩
        [200, 0, 0, 0, 0, 0, 0, 0, 0, 0, 0, 0] 3 0 =
      ⟨⟨2, 1, 1⟩, 5, 100, [⟨7, 7, 0, 0⟩], 2, false, 7, []⟩ :=
  ⟨C5_invalid_reading_counts _ _ _ _ (by decide),
   C5_invalid_reading_counts _ _ _ _ (by decide)⟩

/-- C4: a payload shorter than `columns_per_packet * (20 +
pixels_per_column * 12)` only sets the broken flag; a measurement block
whose trailing 32-bit status word is not `0xFFFFFFFF` only sets the
broken flag; while broken, a valid-status block carrying the current
frame id leaves the state untouched (no points, no counter increment);
and a valid-status block with a different frame id is handled exactly
like the state whose broken flag was cleared and whose point buffer and
counter were reset — the block is then processed normally. -/
theorem C4_broken_until_frame_change (st : LegacyState) (data : List Nat) :
    (data.length < lenExpected st.fmt →
      put st data = some { st with current_broken := true }) ∧
    (blockStatus data ≠ 0xffffffff →
      parse_measure_block st data = { st with current_broken := true }) ∧
    (st.current_broken = true → blockStatus data = 0xffffffff →
      (blockHeader data).frame_id = st.current_frame →
      parse_measure_block st data = st) ∧
    (st.current_broken = true → blockStatus data = 0xffffffff →
      (blockHeader data).frame_id ≠ st.current_frame →
      parse_measure_block st data =
        parse_measure_block
          { st with
            current_broken := false
            current_points := []
            current_num_points := 0 } data) := by
  refine ⟨?_, ?_, ?_, ?_⟩
  · intro hshort
    unfold put
    rw [if_pos hshort]
  · intro hst
    simp only [parse_measure_block]
    rw [if_pos hst]
  · intro hb hst hfr
    have hscs : set_current_state st (blockHeader data) = (false, st) := by
      unfold set_current_state
      rw [if_pos hb, if_neg (not_not_intro hfr)]
    simp only [parse_measure_block, hscs]
    rw [if_neg (not_not_intro hst)]
    rfl
  · intro hb hst hfr
    have hscs : set_current_state st (blockHeader data) =
        set_current_state
          { st with
            current_broken := false
            current_points := []
            current_num_points := 0 } (blockHeader data) := by
      unfold set_current_state
      rw [if_pos hb, if_pos hfr, if_neg (by simp)]
    simp only [parse_measure_block, hscs]
    rw [if_neg (not_not_intro hst), if_neg (not_not_intro hst)]

theorem C4_broken_until_frame_change_witness :
    put ⟨⟨2, 1, 1⟩, 5, 100, [], 0, false, 0, []⟩ [] =
      some ⟨⟨2, 1, 1⟩, 5, 100, [], 0, true, 0, []⟩ ∧
    parse_measure_block ⟨⟨2, 1, 1⟩, 5, 100, [], 0, false, 0, []⟩ [0, 0, 0, 0] =
      ⟨⟨2, 1, 1⟩, 5, 100, [], 0, true, 0, []⟩ ∧
    parse_measure_block ⟨⟨2, 1, 1⟩, 0, 100, [], 0, true, 0, []⟩ [255, 255, 255, 255] =
      ⟨⟨2, 1, 1⟩, 0, 100, [], 0, true, 0, []⟩ ∧
    parse_measure_block ⟨⟨2, 1, 1⟩, 5, 100, [⟨1, 1, 0, 0⟩], 3, true, 0, []⟩
        [255, 255, 255, 255] =
      parse_measure_block ⟨⟨2, 1, 1⟩, 5, 100, [], 0, false, 0, []⟩ [255, 255, 255, 255] :=
  ⟨(C4_broken_until_frame_change ⟨⟨2, 1, 1⟩, 5, 100, [], 0, false, 0, []⟩ []).1
      (by decide),
   (C4_broken_until_frame_change ⟨⟨2, 1, 1⟩, 5, 100, [], 0, false, 0, []⟩
      [0, 0, 0, 0]).2.1 (by decide),
   (C4_broken_until_frame_change ⟨⟨2, 1, 1⟩, 0, 100, [], 0, true, 0, []⟩
      [255, 255, 255, 255]).2.2.1 rfl (by decide) (by decide),
   (C4_broken_until_frame_change ⟨⟨2, 1, 1⟩, 5, 100, [⟨1, 1, 0, 0⟩], 3, true, 0, []⟩
      [255, 255, 255, 255]).2.2.2 rfl (by decide) (by decide)⟩

theorem mem_putOffsets (fmt : DataFormat) (data : List Nat) (o : Nat) :
    o ∈ putOffsets fmt data ↔
      ∃ i, i < (data.length + (lenColumn fmt - 1)) / lenColumn fmt ∧
        o = i * lenColumn fmt := by
  simp only [putOffsets, stepsIn, List.mem_map, List.mem_range, Nat.sub_zero, Nat.zero_add]
  constructor
  · rintro ⟨i, hi, rfl⟩; exact ⟨i, hi, rfl⟩
  · rintro ⟨i, hi, rfl⟩; exact ⟨i, hi, rfl⟩

theorem putOffsets_inbounds (fmt : DataFormat) (data : List Nat)
    (hd : lenColumn fmt ∣ data.length) :
    ∀ o ∈ putOffsets fmt data, o + lenColumn fmt ≤ data.length := by
  obtain ⟨q, hq⟩ := hd
  intro o ho
  rw [mem_putOffsets] at ho
  obtain ⟨i, hi, rfl⟩ := ho
  have hN : (data.length + (lenColumn fmt - 1)) / lenColumn fmt = q := by
    rw [hq, Nat.mul_add_div (lenColumn_pos fmt),
        Nat.div_eq_of_lt (by have := lenColumn_pos fmt; omega)]
    omega
  rw [hN] at hi
  have h1 : i * lenColumn fmt + lenColumn fmt = lenColumn fmt * (i + 1) := by ring
  have h2 : lenColumn fmt * (i + 1) ≤ lenColumn fmt * q :=
    Nat.mul_le_mul_left _ (by omega)
  omega

/-- C10: `Legacy::put` iterates block offsets across the whole payload,
not just the expected `columns_per_packet` blocks.  When the payload
length is at least the expected length but not a multiple of the column
length, the final block slice extends past the end of the payload — an
out-of-bounds access, modelled as `put` returning `none`; the slices all
stay in bounds exactly when the length is a multiple of the column
length, in which case `put` succeeds, and the number of block offsets
processed is at least `columns_per_packet` (every extra whole block is
also processed). -/
theorem C10_put_out_of_bounds (st : LegacyState) (data : List Nat) :
    (lenExpected st.fmt ≤ data.length → ¬ lenColumn st.fmt ∣ data.length →
      put st data = none ∧
      ∃ o ∈ putOffsets st.fmt data, data.length < o + lenColumn st.fmt) ∧
    (lenColumn st.fmt ∣ data.length →
      ∀ o ∈ putOffsets st.fmt data, o + lenColumn st.fmt ≤ data.length) ∧
    (lenExpected st.fmt ≤ data.length → lenColumn st.fmt ∣ data.length →
      (put st data).isSome = true) ∧
    (lenExpected st.fmt ≤ data.length →
      st.fmt.columns_per_packet ≤ (putOffsets st.fmt data).length) := by
  have hlc : 0 < lenColumn st.fmt := lenColumn_pos st.fmt
  refine ⟨?_, putOffsets_inbounds st.fmt data, ?_, ?_⟩
  · intro hexp hnd
    have hmod : data.length % lenColumn st.fmt ≠ 0 := by
      intro h0
      exact hnd (Nat.dvd_iff_mod_eq_zero.mpr h0)
    have hqr := Nat.div_add_mod data.length (lenColumn st.fmt)
    have hmlt : data.length % lenColumn st.fmt < lenColumn st.fmt :=
      Nat.mod_lt _ hlc
    have hcomm : lenColumn st.fmt * (data.length / lenColumn st.fmt) =
        (data.length / lenColumn st.fmt) * lenColumn st.fmt := Nat.mul_comm _ _
    have hN : data.length / lenColumn st.fmt + 1 ≤
        (data.length + (lenColumn st.fmt - 1)) / lenColumn st.fmt := by
      rw [Nat.le_div_iff_mul_le hlc]
      have hd : (data.length / lenColumn st.fmt + 1) * lenColumn st.fmt =
          lenColumn st.fmt * (data.length / lenColumn st.fmt) + lenColumn st.fmt := by
        ring
      omega
    have hmem : (data.length / lenColumn st.fmt) * lenColumn st.fmt ∈
        putOffsets st.fmt data := by
      rw [mem_putOffsets]
      exact ⟨data.length / lenColumn st.fmt, by omega, rfl⟩
    have hlt : data.length <
        (data.length / lenColumn st.fmt) * lenColumn st.fmt + lenColumn st.fmt := by
      omega
    refine ⟨?_, ⟨_, hmem, hlt⟩⟩
    have hnotall : ¬ ((putOffsets st.fmt data).all
        (fun o => decide (o + lenColumn st.fmt ≤ data.length)) = true) := by
      intro hall
      rw [List.all_eq_true] at hall
      have hb := hall _ hmem
      rw [decide_eq_true_eq] at hb
      omega
    unfold put
    rw [if_neg (Nat.not_lt.mpr hexp), if_neg hnotall]
  · intro hexp hd
    have hall : (putOffsets st.fmt data).all
        (fun o => decide (o + lenColumn st.fmt ≤ data.length)) = true := by
      rw [List.all_eq_true]
      intro o ho
      exact decide_eq_true (putOffsets_inbounds st.fmt data hd o ho)
    unfold put
    rw [if_neg (Nat.not_lt.mpr hexp), if_pos hall]
    rfl
  · intro hexp
    rw [putOffsets_length, Nat.le_div_iff_mul_le hlc]
    have hle : lenExpected st.fmt =
        st.fmt.columns_per_packet * lenColumn st.fmt := rfl
    omega

theorem C10_put_out_of_bounds_witness :
    put ⟨⟨1, 1, 0⟩, 0, 0, [], 0, false, 0, []⟩ (List.replicate 30 0) = none ∧
    (∃ o ∈ putOffsets ⟨1, 1, 0⟩ (List.replicate 30 0),
      (List.replicate 30 0).length < o + lenColumn ⟨1, 1, 0⟩) ∧
    (∀ o ∈ putOffsets ⟨1, 1, 0⟩ (List.replicate 40 0),
      o + lenColumn ⟨1, 1, 0⟩ ≤ (List.replicate 40 0).length) ∧
    (put ⟨⟨1, 1, 0⟩, 0, 0, [], 0, false, 0, []⟩ (List.replicate 40 0)).isSome = true ∧
    1 ≤ (putOffsets ⟨1, 1, 0⟩ (List.replicate 40 0)).length :=
  ⟨((C10_put_out_of_bounds ⟨⟨1, 1, 0⟩, 0, 0, [], 0, false, 0, []⟩
      (List.replicate 30 0)).1 (by decide) (by decide)).1,
   ((C10_put_out_of_bounds ⟨⟨1, 1, 0⟩, 0, 0, [], 0, false, 0, []⟩
      (List.replicate 30 0)).1 (by decide) (by decide)).2,
   (C10_put_out_of_bounds ⟨⟨1, 1, 0⟩, 0, 0, [], 0, false, 0, []⟩
      (List.replicate 40 0)).2.1 (by decide),
   (C10_put_out_of_bounds ⟨⟨1, 1, 0⟩, 0, 0, [], 0, false, 0, []⟩
      (List.replicate 40 0)).2.2.1 (by decide) (by decide),
   (C10_put_out_of_bounds ⟨⟨1, 1, 0⟩, 0, 0, [], 0, false, 0, []⟩
      (List.replicate 40 0)).2.2.2 (by decide)⟩

end OusterParse
